import Mathlib

/-!
Verification of the JSON lexer / recursive-descent parser of this repository
(`json_parser_lld`: `tokenizer.py`, `parser_ref.py`, `models.py`,
`exceptions_ref.py`, and the alternative `parser.py`) against its
natural-language specification.

Modelling conventions:
* A Python `str` is a sequence of Unicode code points, including lone
  surrogates, modelled as `List Nat`.
* Python exceptions are modelled as an error inductive with one constructor
  per distinct raise site (exception class plus message template), carrying
  the data interpolated into the message and the reported line/column.
* Python `float(...)` on a numeric literal is modelled by the exact decimal
  value of the literal (a mantissa/exponent pair); the final IEEE-754
  binary64 rounding that Python performs is abstracted away.
* The tokenizer is pull-based in the source (a generator); the parser state
  here is the current token plus the tokenizer state, and pulling the next
  token runs the tokenizer from that state, exactly as `Parser._advance`
  does via `next(self.tokens)`.
-/

namespace JsonLLD

/-- A Python string: the list of its Unicode code points (lone surrogates
allowed, hence not `List Char`). -/
abbrev PyStr := List Nat

/-- Python `str.isspace` for a single code point: true exactly on the
whitespace code points of Python's Unicode database (bidirectional classes
WS, B and S, and category Zs). This is the full table. -/
def pyIsSpace (c : Nat) : Bool :=
  decide (c ∈ ([9, 10, 11, 12, 13, 28, 29, 30, 31, 32, 133, 160, 5760,
    8192, 8193, 8194, 8195, 8196, 8197, 8198, 8199, 8200, 8201, 8202,
    8232, 8233, 8239, 8287, 12288] : List Nat))

/-- Python `str.isdigit` for a single code point: true on code points with
Unicode property `Numeric_Type=Digit` or `Decimal`. The embedding enumerates
the ASCII digits plus the non-ASCII digit code points exercised in this
development (the superscripts U+00B9/U+00B2/U+00B3 and the Arabic-Indic
digits U+0660–U+0669); Python's full table extends the same behaviour to
further Unicode blocks not used here. -/
def pyIsDigit (c : Nat) : Bool :=
  decide ((48 ≤ c ∧ c ≤ 57) ∨ (1632 ≤ c ∧ c ≤ 1641) ∨ c = 178 ∨ c = 179 ∨ c = 185)

/-- The character class `\d` of Python's `re` on `str` patterns: code points
of Unicode category Nd. As for `pyIsDigit`, the embedding enumerates the
ASCII and Arabic-Indic decimal digits, the Nd code points used in this
development. -/
def reDigitD (c : Nat) : Bool :=
  decide ((48 ≤ c ∧ c ≤ 57) ∨ (1632 ≤ c ∧ c ≤ 1641))

/-- ASCII decimal digit `[0-9]`; this is the digit class written in the
specification's number grammar. -/
def asciiDigit (c : Nat) : Bool :=
  decide (48 ≤ c ∧ c ≤ 57)

/-- Hex digit class `[0-9a-fA-F]` checked by `re.fullmatch` in the `\uXXXX`
handling of `Tokenizer._read_string`. -/
def isHexDigit (c : Nat) : Bool :=
  decide ((48 ≤ c ∧ c ≤ 57) ∨ (97 ≤ c ∧ c ≤ 102) ∨ (65 ≤ c ∧ c ≤ 70))

/-- Value of a hex digit code point. -/
def hexDigitVal (c : Nat) : Nat :=
  if c ≤ 57 then c - 48 else if c ≤ 70 then c - 55 else c - 87

/-- Value of `int(hex_digits, 16)` for four hex digits. -/
def hexVal4 (h1 h2 h3 h4 : Nat) : Nat :=
  ((hexDigitVal h1 * 16 + hexDigitVal h2) * 16 + hexDigitVal h3) * 16 + hexDigitVal h4

/-- Python `str.lower` on a single code point, restricted to ASCII case
folding. The tokenizer applies it only to fully matched number literals,
whose code points are digits, `.`, `-`, `+`, `e`, `E`; of these only `E` is
cased, so ASCII folding is faithful there. -/
def pyLower (c : Nat) : Nat :=
  if 65 ≤ c ∧ c ≤ 90 then c + 32 else c

/-- State of `Tokenizer`: the not-yet-consumed input suffix plus the 1-based
line and column of its first character (`self.pos` is represented by the
suffix itself). -/
structure LexState where
  rest : PyStr
  line : Nat
  column : Nat
  deriving DecidableEq

/-- One step of `Tokenizer._advance`: consuming `c` moves to the next line on
`"\n"` and to the next column otherwise. -/
def adv1 (c : Nat) (line col : Nat) : Nat × Nat :=
  if c = 10 then (line + 1, 1) else (line, col + 1)

/-- `Tokenizer._advance(count)`: consume up to `k` characters, updating
line/column per character (stopping silently at end of input). -/
def advN : Nat → LexState → LexState
  | 0, st => st
  | _ + 1, ⟨[], l, c⟩ => ⟨[], l, c⟩
  | k + 1, ⟨ch :: r, l, c⟩ => advN k ⟨r, (adv1 ch l c).1, (adv1 ch l c).2⟩

/-- `Tokenizer._skip_whitespace`: consume characters while `str.isspace`
holds. -/
def skipWsGo : List Nat → Nat → Nat → LexState
  | [], l, c => ⟨[], l, c⟩
  | ch :: r, l, c =>
    if pyIsSpace ch then skipWsGo r (adv1 ch l c).1 (adv1 ch l c).2 else ⟨ch :: r, l, c⟩

def skipWs (st : LexState) : LexState := skipWsGo st.rest st.line st.column

/-- `TokenType` of `tokenizer.py` (TRUE/FALSE/NULL are `tTrue`/`tFalse`/
`tNull` here). -/
inductive TokenType where
  | leftBrace | rightBrace | leftBracket | rightBracket
  | colon | comma | string | number | tTrue | tFalse | tNull | eof
  deriving DecidableEq

/-- A number payload: `int(...)` or `float(...)` result. A float is the exact
decimal value `mant * 10 ^ exp10` of the literal (IEEE rounding abstracted). -/
structure DecFloat where
  mant : Int
  exp10 : Int
  deriving DecidableEq

inductive PyNum where
  | int (i : Int)
  | float (f : DecFloat)
  deriving DecidableEq

def pyNumIsFloat : PyNum → Bool
  | .int _ => false
  | .float _ => true

/-- The exact rational value of a number payload. -/
def numToRat : PyNum → ℚ
  | .int i => (i : ℚ)
  | .float f => (f.mant : ℚ) * (10 : ℚ) ^ f.exp10

/-- The `value` field of a `Token` (`None`, a string, a number, or a bool). -/
inductive TokenValue where
  | none
  | str (s : PyStr)
  | num (v : PyNum)
  | bool (b : Bool)
  deriving DecidableEq

/-- `Token` of `tokenizer.py`. -/
structure Token where
  type : TokenType
  value : TokenValue
  line : Nat
  column : Nat
  deriving DecidableEq

/-- Descriptions passed as the `expected` argument of the parser exceptions,
one constructor per distinct text in the source:
`tokenName t` is `expected_type.name` in `_eat`;
`jsonValueFull` is the long "JSON value (object, array, ...)" text;
`jsonValue` is "JSON value"; `stringKey` is "String (object key)";
`rightBraceD` / `rightBracketD` are the closing-delimiter texts;
`commaOrRightBrace` / `commaOrRightBracket` are the comma-or-close texts. -/
inductive ExpectedDesc where
  | tokenName (t : TokenType)
  | jsonValueFull
  | jsonValue
  | stringKey
  | rightBraceD
  | rightBracketD
  | commaOrRightBrace
  | commaOrRightBracket
  deriving DecidableEq

/-- Errors of `exceptions_ref.py`, one constructor per raise site of
`tokenizer.py`/`parser_ref.py` (exception class plus message template):
`unexpectedCharacter c` is `MalformedJsonException("Unexpected character: c")`;
`extraData` is `MalformedJsonException("Extra data after JSON document")`;
`trailingCommaObject`/`trailingCommaArray` are
`MalformedJsonException("Trailing comma not allowed in object/array")`;
`unexpectedToken`/`unexpectedEndOfInput` are the corresponding exception
classes; `invalidNumber lit` is `InvalidNumberException(lit)`;
`invalidUnicodeEscape` is `InvalidStringException("Invalid unicode escape
sequence")`; `invalidEscape c` is `InvalidStringException("Invalid escape
sequence: \c")`; `unterminatedString` is `UnterminatedStringException`;
`duplicateKey k` is `DuplicateKeyException(k)`. -/
inductive JsonError where
  | unexpectedCharacter (c : Nat) (line col : Nat)
  | extraData (line col : Nat)
  | trailingCommaObject (line col : Nat)
  | trailingCommaArray (line col : Nat)
  | unexpectedToken (expected : ExpectedDesc) (actual : TokenType) (line col : Nat)
  | unexpectedEndOfInput (expected : ExpectedDesc) (line col : Nat)
  | invalidNumber (literal : PyStr) (line col : Nat)
  | invalidUnicodeEscape (line col : Nat)
  | invalidEscape (c : Nat) (line col : Nat)
  | unterminatedString (line col : Nat)
  | duplicateKey (key : PyStr) (line col : Nat)
  deriving DecidableEq

/-- The simple-escape elif chain of `Tokenizer._read_string`: the characters
`" \ / b f n r t` map to their replacement; `none` for every other escape
character (`u` and the invalid ones, handled by the caller in source order). -/
def escChar (e : Nat) : Option Nat :=
  if e = 34 then some 34
  else if e = 92 then some 92
  else if e = 47 then some 47
  else if e = 98 then some 8
  else if e = 102 then some 12
  else if e = 110 then some 10
  else if e = 114 then some 13
  else if e = 116 then some 9
  else none

/-- Loop of `Tokenizer._read_string`, entered after the opening quote.
`sl`/`sc` are the start line/column of the string token; `acc` is
`value_chars`; the list and `l`/`c` are the tokenizer state. Transcribed
branch by branch from the source: `\\` starts an escape (the simple escapes
via `escChar`, then `\uXXXX` requiring exactly four hex digits, appended as
one code unit via `chr`, which accepts lone surrogates — the `ValueError`
branch of the source is unreachable since the value is at most `0xFFFF` —
then `InvalidStringException` for any other escape character); `"` closes
the token; a raw `"\n"` raises `UnterminatedStringException` at the start
position; any other character (including a raw `"\r"`) is appended; end of
input raises `UnterminatedStringException`. -/
def readStringGo (sl sc : Nat) (acc : List Nat) :
    List Nat → Nat → Nat → Except JsonError (Token × LexState)
  | [], _, _ => .error (.unterminatedString sl sc)
  | [92], _, _ => .error (.unterminatedString sl sc)
  | 92 :: 117 :: h1 :: h2 :: h3 :: h4 :: r6, l, c =>
    if isHexDigit h1 && isHexDigit h2 && isHexDigit h3 && isHexDigit h4 then
      readStringGo sl sc (acc ++ [hexVal4 h1 h2 h3 h4]) r6
        (advN 4 ⟨h1 :: h2 :: h3 :: h4 :: r6, l, c + 2⟩).line
        (advN 4 ⟨h1 :: h2 :: h3 :: h4 :: r6, l, c + 2⟩).column
    else .error (.invalidUnicodeEscape l (c + 2))
  | 92 :: 117 :: r2, l, c => .error (.invalidUnicodeEscape l (c + 2))
  | 92 :: e :: r2, l, c =>
    match escChar e with
    | some x => readStringGo sl sc (acc ++ [x]) r2 (adv1 e l (c + 1)).1 (adv1 e l (c + 1)).2
    | none => .error (.invalidEscape e (adv1 e l (c + 1)).1 ((adv1 e l (c + 1)).2 - 1))
  | ch :: r, l, c =>
    if ch = 34 then .ok (⟨.string, .str acc, sl, sc⟩, ⟨r, (adv1 ch l c).1, (adv1 ch l c).2⟩)
    else if ch = 10 then .error (.unterminatedString sl sc)
    else readStringGo sl sc (acc ++ [ch]) r (adv1 ch l c).1 (adv1 ch l c).2

/-- `Tokenizer._read_string`: record the start position, consume the opening
quote, run the loop. -/
def readString : LexState → Except JsonError (Token × LexState)
  | ⟨[], l, c⟩ => .error (.unterminatedString l c)
  | ⟨q :: r, l, c⟩ => readStringGo l c [] r (adv1 q l c).1 (adv1 q l c).2

/-! Step equations for `readStringGo`, one per pattern, with the pattern
overlap conditions as hypotheses. -/

theorem readStringGo_nil (sl sc l c : Nat) (acc : List Nat) :
    readStringGo sl sc acc [] l c = .error (.unterminatedString sl sc) := by
  rw [readStringGo]

theorem readStringGo_bsEnd (sl sc l c : Nat) (acc : List Nat) :
    readStringGo sl sc acc [92] l c = .error (.unterminatedString sl sc) := by
  rw [readStringGo]

theorem readStringGo_u4 (sl sc l c : Nat) (acc : List Nat) (h1 h2 h3 h4 : Nat)
    (r6 : List Nat) :
    readStringGo sl sc acc (92 :: 117 :: h1 :: h2 :: h3 :: h4 :: r6) l c =
      if isHexDigit h1 && isHexDigit h2 && isHexDigit h3 && isHexDigit h4 then
        readStringGo sl sc (acc ++ [hexVal4 h1 h2 h3 h4]) r6
          (advN 4 ⟨h1 :: h2 :: h3 :: h4 :: r6, l, c + 2⟩).line
          (advN 4 ⟨h1 :: h2 :: h3 :: h4 :: r6, l, c + 2⟩).column
      else .error (.invalidUnicodeEscape l (c + 2)) := by
  rw [readStringGo]

theorem readStringGo_uShort (sl sc l c : Nat) (acc : List Nat) (r2 : List Nat)
    (hlen : r2.length ≤ 3) :
    readStringGo sl sc acc (92 :: 117 :: r2) l c =
      .error (.invalidUnicodeEscape l (c + 2)) := by
  match r2 with
  | [] => rw [readStringGo] <;> (intros; simp_all)
  | [a] => rw [readStringGo] <;> (intros; simp_all)
  | [a, b] => rw [readStringGo] <;> (intros; simp_all)
  | [a, b, d] => rw [readStringGo] <;> (intros; simp_all)
  | a :: b :: d :: e :: r => simp at hlen

theorem readStringGo_esc (sl sc l c : Nat) (acc : List Nat) (e : Nat) (r2 : List Nat)
    (h117 : e ≠ 117) :
    readStringGo sl sc acc (92 :: e :: r2) l c =
      match escChar e with
      | some x => readStringGo sl sc (acc ++ [x]) r2 (adv1 e l (c + 1)).1 (adv1 e l (c + 1)).2
      | none => .error (.invalidEscape e (adv1 e l (c + 1)).1 ((adv1 e l (c + 1)).2 - 1)) := by
  rw [readStringGo]
  all_goals (intros; simp_all)

theorem readStringGo_chr (sl sc l c : Nat) (acc : List Nat) (ch : Nat) (r : List Nat)
    (h92 : ch ≠ 92) :
    readStringGo sl sc acc (ch :: r) l c =
      if ch = 34 then .ok (⟨.string, .str acc, sl, sc⟩, ⟨r, (adv1 ch l c).1, (adv1 ch l c).2⟩)
      else if ch = 10 then .error (.unterminatedString sl sc)
      else readStringGo sl sc (acc ++ [ch]) r (adv1 ch l c).1 (adv1 ch l c).2 := by
  nth_rewrite 1 [readStringGo]
  all_goals (intros; simp_all)

/-- Characters collected into the "potential number" run by
`Tokenizer._read_number`: `str.isdigit` or one of `. - + e E`. -/
def numScanChar (c : Nat) : Bool :=
  pyIsDigit c || decide (c ∈ ([46, 45, 43, 101, 69] : List Nat))

/-- Matcher for `(?:0|[1-9]\d*)` with digit class `d`, returning the
remaining suffix on success. The regex is deterministic here: no following
part of the number pattern can match a digit, so greedy matching without
backtracking is exact. -/
def reMatchInt (d : Nat → Bool) : List Nat → Option (List Nat)
  | [] => none
  | c :: r =>
    if c = 48 then some r
    else if 49 ≤ c ∧ c ≤ 57 then some (r.dropWhile d) else none

/-- Matcher for the optional `(?:\.\d+)?` with digit class `d`. -/
def reMatchFrac (d : Nat → Bool) : List Nat → Option (List Nat)
  | 46 :: r => if r.takeWhile d = [] then none else some (r.dropWhile d)
  | s => some s

/-- Matcher for the optional `(?:[eE][+-]?\d+)?` with digit class `d`. -/
def reMatchExp (d : Nat → Bool) : List Nat → Option (List Nat)
  | [] => some []
  | c :: r =>
    if c = 101 ∨ c = 69 then
      let r2 := match r with
        | s :: r3 => if s = 43 ∨ s = 45 then r3 else s :: r3
        | [] => []
      if r2.takeWhile d = [] then none else some (r2.dropWhile d)
    else some (c :: r)

/-- The leading `-?`: strip an optional minus sign, recording the sign. -/
def stripMinus : List Nat → Int × List Nat
  | 45 :: r => (-1, r)
  | r => (1, r)

/-- The sign-free part of the number pattern,
`(?:0|[1-9]\d*)(?:\.\d+)?(?:[eE][+-]?\d+)?`, with digit class `d`. -/
def reChain (d : Nat → Bool) (s1 : List Nat) : Bool :=
  match reMatchInt d s1 with
  | none => false
  | some r1 =>
    match reMatchFrac d r1 with
    | none => false
    | some r2 =>
      match reMatchExp d r2 with
      | none => false
      | some r3 => r3.isEmpty

/-- `re.fullmatch` of the number pattern `-?(?:0|[1-9]\d*)(?:\.\d+)?
(?:[eE][+-]?\d+)?` with digit class `d`. -/
def reFullmatch (d : Nat → Bool) (s : List Nat) : Bool :=
  reChain d (stripMinus s).2

/-- The validation performed by `Tokenizer._read_number`: the pattern with
Python's `\d`. -/
def numberFullmatch (s : PyStr) : Bool := reFullmatch reDigitD s

/-- The specification's number grammar
`-?(0|[1-9][0-9]*)(\.[0-9]+)?([eE][+-]?[0-9]+)?`: the same pattern with the
ASCII digit class `[0-9]`. -/
def specNumberGrammar (s : PyStr) : Bool := reFullmatch asciiDigit s

/-- Numeric value of a decimal-digit code point (ASCII or Arabic-Indic, the
Nd points enumerated in `reDigitD`). -/
def digitVal (c : Nat) : Nat :=
  if 48 ≤ c ∧ c ≤ 57 then c - 48
  else if 1632 ≤ c ∧ c ≤ 1641 then c - 1632 else 0

/-- Value of a run of decimal digits, most significant first. -/
def digitsToNat (s : List Nat) : Nat :=
  s.foldl (fun a c => 10 * a + digitVal c) 0

/-- Python `int(s)` on a validated integer literal: optional `-` then
decimal digits. -/
def pyIntOfString (s : PyStr) : Int :=
  (stripMinus s).1 * (digitsToNat (stripMinus s).2 : Int)

/-- Decomposition of a validated number literal into sign, integer digits,
fraction digits and signed exponent digits. -/
structure NumParts where
  sign : Int
  ipart : List Nat
  fpart : List Nat
  esign : Int
  epart : List Nat

/-- Fraction step of the decomposition: on `.` the fraction digits and the
rest, else no fraction digits. -/
def decompFrac : List Nat → List Nat × List Nat
  | 46 :: r => (r.takeWhile reDigitD, r.dropWhile reDigitD)
  | r => ([], r)

/-- Exponent step of the decomposition: on `e`/`E` the exponent sign and
its digits. -/
def decompExp : List Nat → Int × List Nat
  | [] => (1, [])
  | c :: 43 :: r4 =>
    if c = 101 ∨ c = 69 then (1, r4.takeWhile reDigitD) else (1, [])
  | c :: 45 :: r4 =>
    if c = 101 ∨ c = 69 then (-1, r4.takeWhile reDigitD) else (1, [])
  | c :: r3 =>
    if c = 101 ∨ c = 69 then (1, r3.takeWhile reDigitD) else (1, [])

def numDecomp (s : PyStr) : NumParts :=
  let p1 := stripMinus s
  let ip := p1.2.takeWhile reDigitD
  let r1 := p1.2.dropWhile reDigitD
  let p2 := decompFrac r1
  let p3 := decompExp p2.2
  ⟨p1.1, ip, p2.1, p3.1, p3.2⟩

/-- Python `float(s)` on a validated number literal, as the exact decimal
value: mantissa `sign * digits(int part ++ fraction part)` and exponent
`(signed exponent) - (number of fraction digits)`. -/
def pyFloatOfString (s : PyStr) : DecFloat :=
  let p := numDecomp s
  ⟨p.sign * (digitsToNat (p.ipart ++ p.fpart) : Int),
    p.esign * (digitsToNat p.epart : Int) - (p.fpart.length : Int)⟩

/-- The conversion in `Tokenizer._read_number`: `float` if the literal
contains `.` or (lower-cased) `e`, else `int`. The `ValueError` fallback of
the source is unreachable for fully matched literals. -/
def numValOfRun (s : PyStr) : PyNum :=
  if s.contains 46 || (s.map pyLower).contains 101 then .float (pyFloatOfString s)
  else .int (pyIntOfString s)

/-- `Tokenizer._read_number`: scan the maximal run of number characters,
validate it as a whole with `re.fullmatch`, raise
`InvalidNumberException(run)` at the start position on failure, otherwise
consume the run and emit the NUMBER token. -/
def readNumber (st : LexState) : Except JsonError (Token × LexState) :=
  let run := st.rest.takeWhile numScanChar
  if numberFullmatch run then
    .ok (⟨.number, .num (numValOfRun run), st.line, st.column⟩, advN run.length st)
  else .error (.invalidNumber run st.line st.column)

/-- Dispatch of `Tokenizer.tokenize` after whitespace skipping: single
characters, strings, numbers (on `-` or `str.isdigit`), the keywords
`true`/`false`/`null` by prefix match, otherwise
`MalformedJsonException("Unexpected character: ...")`; at end of input the
EOF token at the current position. -/
def nextTokenCore : LexState → Except JsonError (Token × LexState)
  | ⟨[], l, c⟩ => .ok (⟨.eof, .none, l, c⟩, ⟨[], l, c⟩)
  | ⟨ch :: r, l, c⟩ =>
    if ch = 123 then .ok (⟨.leftBrace, .none, l, c⟩, advN 1 ⟨ch :: r, l, c⟩)
    else if ch = 125 then .ok (⟨.rightBrace, .none, l, c⟩, advN 1 ⟨ch :: r, l, c⟩)
    else if ch = 91 then .ok (⟨.leftBracket, .none, l, c⟩, advN 1 ⟨ch :: r, l, c⟩)
    else if ch = 93 then .ok (⟨.rightBracket, .none, l, c⟩, advN 1 ⟨ch :: r, l, c⟩)
    else if ch = 58 then .ok (⟨.colon, .none, l, c⟩, advN 1 ⟨ch :: r, l, c⟩)
    else if ch = 44 then .ok (⟨.comma, .none, l, c⟩, advN 1 ⟨ch :: r, l, c⟩)
    else if ch = 34 then readString ⟨ch :: r, l, c⟩
    else if ch = 45 ∨ pyIsDigit ch then readNumber ⟨ch :: r, l, c⟩
    else if [116, 114, 117, 101].isPrefixOf (ch :: r) then
      .ok (⟨.tTrue, .bool true, l, c⟩, advN 4 ⟨ch :: r, l, c⟩)
    else if [102, 97, 108, 115, 101].isPrefixOf (ch :: r) then
      .ok (⟨.tFalse, .bool false, l, c⟩, advN 5 ⟨ch :: r, l, c⟩)
    else if [110, 117, 108, 108].isPrefixOf (ch :: r) then
      .ok (⟨.tNull, .none, l, c⟩, advN 4 ⟨ch :: r, l, c⟩)
    else .error (.unexpectedCharacter ch l c)

/-- One pull from the `tokenize` generator: skip whitespace, then dispatch.
At end of input this repeatably returns the EOF token (matching the
generator's final yield together with `Parser._advance`'s `StopIteration`
handling). -/
def nextToken (st : LexState) : Except JsonError (Token × LexState) :=
  nextTokenCore (skipWs st)

set_option maxHeartbeats 1600000

/-! Consumption lemmas: a successful pull consumes at least one input
character unless it produced the EOF token, in which case the input is
exhausted. These justify termination of the pull-based parser below. -/

theorem skipWsGo_len (r : List Nat) (l c : Nat) :
    (skipWsGo r l c).rest.length ≤ r.length := by
  induction r generalizing l c with
  | nil => simp [skipWsGo]
  | cons ch rest ih =>
    rw [skipWsGo]
    split
    · exact le_trans (ih _ _) (by simp)
    · simp

theorem advN_len (k : Nat) (st : LexState) : (advN k st).rest.length ≤ st.rest.length := by
  induction k generalizing st with
  | zero => simp [advN]
  | succ n ih =>
    match st with
    | ⟨[], l, c⟩ => simp [advN]
    | ⟨ch :: r, l, c⟩ =>
      rw [advN]
      exact le_trans (ih _) (by simp)

theorem advN_len_lt (k : Nat) (st : LexState) (hk : 0 < k) (hr : st.rest ≠ []) :
    (advN k st).rest.length < st.rest.length := by
  match k, st with
  | 0, _ => omega
  | n + 1, ⟨[], l, c⟩ => exact absurd rfl hr
  | n + 1, ⟨ch :: r, l, c⟩ =>
    rw [advN]
    have := advN_len n ⟨r, (adv1 ch l c).1, (adv1 ch l c).2⟩
    simp at this ⊢
    omega

theorem readStringGo_len_aux (sl sc : Nat) (t : Token) (st2 : LexState) :
    ∀ (n : Nat) (r : List Nat), r.length ≤ n → ∀ (acc : List Nat) (l c : Nat),
      readStringGo sl sc acc r l c = .ok (t, st2) →
      st2.rest.length ≤ r.length ∧ t.type = .string := by
  intro n
  induction n with
  | zero =>
    intro r hr acc l c h
    have hnil : r = [] := by
      cases r with
      | nil => rfl
      | cons a b => simp at hr
    rw [hnil, readStringGo.eq_def] at h
    exact absurd h (by simp)
  | succ n ih =>
    intro r hr acc l c h
    match r with
    | [] =>
      rw [readStringGo_nil] at h
      exact absurd h (by simp)
    | ch :: r1 =>
      by_cases h92 : ch = 92
      · subst h92
        match r1 with
        | [] =>
          rw [readStringGo_bsEnd] at h
          exact absurd h (by simp)
        | e :: r2 =>
          by_cases h117 : e = 117
          · subst h117
            match r2 with
            | h1 :: h2 :: h3 :: h4 :: r6 =>
              rw [readStringGo_u4] at h
              split at h
              · have := ih r6 (by simp at hr ⊢; omega) _ _ _ h
                exact ⟨le_trans this.1 (by simp; omega), this.2⟩
              · exact absurd h (by simp)
            | [] =>
              rw [readStringGo_uShort _ _ _ _ _ _ (by simp)] at h
              exact absurd h (by simp)
            | [a] =>
              rw [readStringGo_uShort _ _ _ _ _ _ (by simp)] at h
              exact absurd h (by simp)
            | [a, b] =>
              rw [readStringGo_uShort _ _ _ _ _ _ (by simp)] at h
              exact absurd h (by simp)
            | [a, b, d] =>
              rw [readStringGo_uShort _ _ _ _ _ _ (by simp)] at h
              exact absurd h (by simp)
          · rw [readStringGo_esc _ _ _ _ _ _ _ h117] at h
            split at h
            · -- simple escape, loop continues
              have := ih r2 (by simp at hr ⊢; omega) _ _ _ h
              exact ⟨le_trans this.1 (by simp; omega), this.2⟩
            · exact absurd h (by simp)
      · rw [readStringGo_chr _ _ _ _ _ _ _ h92] at h
        by_cases h34 : ch = 34
        · rw [if_pos h34] at h
          simp at h
          refine ⟨?_, by simp [← h.1]⟩
          have : st2 = ⟨r1, (adv1 ch l c).1, (adv1 ch l c).2⟩ := h.2.symm
          simp [this]
        · rw [if_neg h34] at h
          by_cases h10 : ch = 10
          · rw [if_pos h10] at h; exact absurd h (by simp)
          · rw [if_neg h10] at h
            have := ih r1 (by simp at hr ⊢; omega) _ _ _ h
            exact ⟨le_trans this.1 (by simp), this.2⟩

theorem readStringGo_len (sl sc : Nat) (acc : List Nat) (r : List Nat) (l c : Nat)
    (t : Token) (st2 : LexState) (h : readStringGo sl sc acc r l c = .ok (t, st2)) :
    st2.rest.length ≤ r.length ∧ t.type = .string :=
  readStringGo_len_aux sl sc t st2 r.length r le_rfl acc l c h

theorem readString_len (st : LexState) (t : Token) (st2 : LexState)
    (h : readString st = .ok (t, st2)) :
    st2.rest.length < st.rest.length ∨ st.rest = [] := by
  match st with
  | ⟨[], l, c⟩ => exact Or.inr rfl
  | ⟨q :: r, l, c⟩ =>
    rw [readString] at h
    have := readStringGo_len _ _ _ _ _ _ _ _ h
    left
    simp
    omega

theorem readString_type (st : LexState) (t : Token) (st2 : LexState)
    (h : readString st = .ok (t, st2)) : t.type = .string := by
  match st with
  | ⟨[], l, c⟩ => rw [readString] at h; exact absurd h (by simp)
  | ⟨q :: r, l, c⟩ =>
    rw [readString] at h
    exact (readStringGo_len _ _ _ _ _ _ _ _ h).2

theorem reFullmatch_nil (d : Nat → Bool) : reFullmatch d [] = false := by
  simp [reFullmatch, stripMinus, reChain, reMatchInt]

theorem readNumber_ok (st : LexState) (t : Token) (st2 : LexState)
    (h : readNumber st = .ok (t, st2)) :
    (st2.rest.length < st.rest.length ∨ st.rest = []) ∧ t.type = .number := by
  rw [readNumber] at h
  split at h
  next hm =>
    simp at h
    have hrun : (st.rest.takeWhile numScanChar) ≠ [] := by
      intro hnil
      rw [hnil] at hm
      simp [numberFullmatch, reFullmatch, stripMinus, reChain, reMatchInt] at hm
    have hrest : st.rest ≠ [] := by
      intro hr
      rw [hr] at hrun
      simp at hrun
    constructor
    · left
      have hpos : 0 < (st.rest.takeWhile numScanChar).length :=
        List.length_pos.mpr hrun
      rw [← h.2]
      exact advN_len_lt _ st hpos hrest
    · simp [← h.1]
  · exact absurd h (by simp)

theorem nextTokenCore_shape (st : LexState) (t : Token) (st2 : LexState)
    (h : nextTokenCore st = .ok (t, st2)) :
    (t.type = .eof ∧ st.rest = [] ∧ st2 = st) ∨
      (t.type ≠ .eof ∧ st2.rest.length < st.rest.length) := by
  match st with
  | ⟨[], l, c⟩ =>
    rw [nextTokenCore] at h
    simp at h
    exact Or.inl ⟨by simp [← h.1], rfl, by simp [← h.2]⟩
  | ⟨ch :: r, l, c⟩ =>
    rw [nextTokenCore] at h
    right
    have hadv1 : (advN 1 ⟨ch :: r, l, c⟩).rest.length < (ch :: r).length := by
      have := advN_len_lt 1 ⟨ch :: r, l, c⟩ (by omega) (by simp)
      simpa using this
    have hadv4 : (advN 4 ⟨ch :: r, l, c⟩).rest.length < (ch :: r).length := by
      have := advN_len_lt 4 ⟨ch :: r, l, c⟩ (by omega) (by simp)
      simpa using this
    have hadv5 : (advN 5 ⟨ch :: r, l, c⟩).rest.length < (ch :: r).length := by
      have := advN_len_lt 5 ⟨ch :: r, l, c⟩ (by omega) (by simp)
      simpa using this
    by_cases h1 : ch = 123
    · rw [if_pos h1] at h
      simp at h
      exact ⟨by simp [← h.1], by rw [← h.2]; exact hadv1⟩
    rw [if_neg h1] at h
    by_cases h2 : ch = 125
    · rw [if_pos h2] at h
      simp at h
      exact ⟨by simp [← h.1], by rw [← h.2]; exact hadv1⟩
    rw [if_neg h2] at h
    by_cases h3 : ch = 91
    · rw [if_pos h3] at h
      simp at h
      exact ⟨by simp [← h.1], by rw [← h.2]; exact hadv1⟩
    rw [if_neg h3] at h
    by_cases h4 : ch = 93
    · rw [if_pos h4] at h
      simp at h
      exact ⟨by simp [← h.1], by rw [← h.2]; exact hadv1⟩
    rw [if_neg h4] at h
    by_cases h5 : ch = 58
    · rw [if_pos h5] at h
      simp at h
      exact ⟨by simp [← h.1], by rw [← h.2]; exact hadv1⟩
    rw [if_neg h5] at h
    by_cases h6 : ch = 44
    · rw [if_pos h6] at h
      simp at h
      exact ⟨by simp [← h.1], by rw [← h.2]; exact hadv1⟩
    rw [if_neg h6] at h
    by_cases h7 : ch = 34
    · rw [if_pos h7] at h
      have ht := readString_type _ _ _ h
      have hl := readString_len _ _ _ h
      refine ⟨by simp [ht], ?_⟩
      rcases hl with hl | hl
      · exact hl
      · simp at hl
    rw [if_neg h7] at h
    by_cases h8 : ch = 45 ∨ pyIsDigit ch
    · rw [if_pos h8] at h
      have hn := readNumber_ok _ _ _ h
      refine ⟨by simp [hn.2], ?_⟩
      rcases hn.1 with hl | hl
      · exact hl
      · simp at hl
    rw [if_neg h8] at h
    by_cases h9 : List.isPrefixOf [116, 114, 117, 101] (ch :: r)
    · rw [if_pos h9] at h
      simp at h
      exact ⟨by simp [← h.1], by rw [← h.2]; exact hadv4⟩
    rw [if_neg h9] at h
    by_cases h10 : List.isPrefixOf [102, 97, 108, 115, 101] (ch :: r)
    · rw [if_pos h10] at h
      simp at h
      exact ⟨by simp [← h.1], by rw [← h.2]; exact hadv5⟩
    rw [if_neg h10] at h
    by_cases h11 : List.isPrefixOf [110, 117, 108, 108] (ch :: r)
    · rw [if_pos h11] at h
      simp at h
      exact ⟨by simp [← h.1], by rw [← h.2]; exact hadv4⟩
    rw [if_neg h11] at h
    exact absurd h (by simp)

theorem nextToken_eof (st : LexState) (t : Token) (st2 : LexState)
    (h : nextToken st = .ok (t, st2)) (he : t.type = .eof) : st2.rest = [] := by
  rcases nextTokenCore_shape _ _ _ h with ⟨_, h2, h3⟩ | ⟨h1, _⟩
  · rw [h3]; exact h2
  · exact absurd he h1

theorem nextToken_lt (st : LexState) (t : Token) (st2 : LexState)
    (h : nextToken st = .ok (t, st2)) (he : t.type ≠ .eof) :
    st2.rest.length < st.rest.length := by
  rcases nextTokenCore_shape _ _ _ h with ⟨h1, _, _⟩ | ⟨_, h2⟩
  · exact absurd h1 he
  · have : (skipWs st).rest.length ≤ st.rest.length := skipWsGo_len _ _ _
    omega

/-! The parser of `parser_ref.py`. Its state is the current token
(`self.current_token`) plus the tokenizer state the next token will be
pulled from. -/

structure PState where
  tok : Token
  lex : LexState
  deriving DecidableEq

/-- Termination measure of a parser state: unconsumed input length, plus one
if the current token still has to be consumed. -/
def mu (ps : PState) : Nat :=
  ps.lex.rest.length + (if ps.tok.type = .eof then 0 else 1)

/-- `Parser._advance`: pull the next token (the `StopIteration` branch of the
source reproduces the EOF token, which `nextToken` already does at exhausted
input). -/
def advanceP (ps : PState) : Except JsonError PState :=
  match nextToken ps.lex with
  | .error e => .error e
  | .ok (t, l2) => .ok ⟨t, l2⟩

theorem advanceP_mu (ps ps2 : PState) (h : advanceP ps = .ok ps2)
    (he : ps.tok.type ≠ .eof) : mu ps2 < mu ps := by
  unfold advanceP at h
  split at h
  · simp at h
  next t l2 heq =>
    simp at h
    by_cases ht : t.type = .eof
    · have := nextToken_eof ps.lex t l2 heq ht
      simp [mu, ← h, ht, this, he]
    · have := nextToken_lt ps.lex t l2 heq ht
      simp [mu, ← h, ht, he]
      omega

/-- `Parser._advance` packaged with its measure decrease (usable only while
the current token is not EOF, which holds at every call site in the
source). -/
def advanceS (ps : PState) (hne : ps.tok.type ≠ .eof) :
    Except JsonError {ps2 : PState // mu ps2 < mu ps} :=
  match hadv : advanceP ps with
  | .error e => .error e
  | .ok ps2 => .ok ⟨ps2, advanceP_mu ps ps2 hadv hne⟩

theorem advanceS_val (ps : PState) (hne : ps.tok.type ≠ .eof) :
    (advanceS ps hne).map Subtype.val = advanceP ps := by
  unfold advanceS
  split
  next e heq => simp [heq, Except.map]
  next ps2 heq => simp [heq, Except.map]

theorem advanceS_ok (ps : PState) (hne : ps.tok.type ≠ .eof) (ps1 : PState)
    (h : advanceP ps = .ok ps1) :
    ∃ hp, advanceS ps hne = .ok ⟨ps1, hp⟩ := by
  have hv := advanceS_val ps hne
  rw [h] at hv
  match hs : advanceS ps hne with
  | .error e => rw [hs] at hv; simp [Except.map] at hv
  | .ok ⟨x, hp⟩ =>
    rw [hs] at hv
    simp [Except.map] at hv
    exact ⟨hv ▸ hp, by simp [hv]⟩

theorem advanceS_err (ps : PState) (hne : ps.tok.type ≠ .eof) (e : JsonError)
    (h : advanceP ps = .error e) : advanceS ps hne = .error e := by
  have hv := advanceS_val ps hne
  rw [h] at hv
  match hs : advanceS ps hne with
  | .error e2 => rw [hs] at hv; simp [Except.map] at hv; rw [hv]
  | .ok x => rw [hs] at hv; simp [Except.map] at hv

/-- `Parser._eat`: consume the current token if its type matches, else raise
`UnexpectedTokenException(expected_type.name, actual.name)`. -/
def eatS (tt : TokenType) (ps : PState) (hne : tt ≠ TokenType.eof) :
    Except JsonError {ps2 : PState // mu ps2 < mu ps} :=
  if h : ps.tok.type = tt then
    advanceS ps (by rw [h]; exact hne)
  else
    .error (.unexpectedToken (.tokenName tt) ps.tok.type ps.tok.line ps.tok.column)

/-- `JsonValue` of `models.py`: `JsonString`, `JsonNumber`, `JsonBoolean`,
`JsonNull` (`JSON_NULL`), `JsonArray`, `JsonObject` (an insertion-ordered
string-keyed mapping). -/
inductive JsonValue where
  | str (s : PyStr)
  | num (v : PyNum)
  | bool (b : Bool)
  | null
  | arr (elements : List JsonValue)
  | obj (properties : List (PyStr × JsonValue))

/-- First binding of a key in an ordered mapping (`key in properties` and
`properties[key]`; keys are unique whenever the parser builds the map). -/
def lookupProp (k : PyStr) : List (PyStr × JsonValue) → Option JsonValue
  | [] => none
  | (k2, v) :: rest => if k2 = k then some v else lookupProp k rest

/-- Payload of a STRING token (`token.value`; always a `.str` there). -/
def getStr : TokenValue → PyStr
  | .str s => s
  | _ => []

/-- Payload of a NUMBER token (`token.value`; always a `.num` there). -/
def getNum : TokenValue → PyNum
  | .num v => v
  | _ => .int 0

/-- Control point of the recursive-descent parser:
`value` is `_parse_value`; `objLoop props` is the `while` loop head of
`_parse_object` with the bindings accumulated so far; `objAfter props` is
the comma/close handling after an entry has been inserted; `arrLoop` and
`arrAfter` are the same points of `_parse_array`. -/
inductive PMode where
  | value
  | objLoop (props : List (PyStr × JsonValue))
  | objAfter (props : List (PyStr × JsonValue))
  | arrLoop (elements : List JsonValue)
  | arrAfter (elements : List JsonValue)

def modeRank : PMode → Nat
  | .value => 0
  | .objLoop _ => 1
  | .objAfter _ => 1
  | .arrLoop _ => 1
  | .arrAfter _ => 1

/-- Lexicographic termination measure: `_parse_value` is entered from the
array loop head without consuming a token, every other recursive step
consumes at least one. -/
def muM (m : PMode) (ps : PState) : Nat := 2 * mu ps + modeRank m

/-- The recursive-descent parser of `parser_ref.py`, one function over the
control points of `PMode`, transcribed branch by branch (see `PMode` for the
correspondence). The fuel `n` bounds the measure `muM` and makes the
recursion structural; it never influences the result. The returned proof
says each call consumes at least one token. -/
def parseGo : (n : Nat) → (m : PMode) → (ps : PState) → muM m ps < n →
    Except JsonError {r : JsonValue × PState // mu r.2 < mu ps}
  | 0, _, _, h => absurd h (by omega)
  | n + 1, .value, ps, h =>
    -- _parse_value: dispatch on the current token type
    if h1 : ps.tok.type = .leftBrace then
      match eatS .leftBrace ps (by simp) with
      | .error e => .error e
      | .ok ⟨ps1, hp1⟩ =>
        match parseGo n (.objLoop []) ps1 (by simp only [muM, modeRank] at *; omega) with
        | .error e => .error e
        | .ok ⟨vps, hp2⟩ => .ok ⟨vps, by omega⟩
    else if h2 : ps.tok.type = .leftBracket then
      match eatS .leftBracket ps (by simp) with
      | .error e => .error e
      | .ok ⟨ps1, hp1⟩ =>
        match parseGo n (.arrLoop []) ps1 (by simp only [muM, modeRank] at *; omega) with
        | .error e => .error e
        | .ok ⟨vps, hp2⟩ => .ok ⟨vps, by omega⟩
    else if h3 : ps.tok.type = .string then
      -- _parse_string: wrap the token payload, then _eat(STRING)
      match eatS .string ps (by simp) with
      | .error e => .error e
      | .ok ⟨ps1, hp1⟩ => .ok ⟨(.str (getStr ps.tok.value), ps1), hp1⟩
    else if h4 : ps.tok.type = .number then
      match eatS .number ps (by simp) with
      | .error e => .error e
      | .ok ⟨ps1, hp1⟩ => .ok ⟨(.num (getNum ps.tok.value), ps1), hp1⟩
    else if h5 : ps.tok.type = .tTrue then
      match eatS .tTrue ps (by simp) with
      | .error e => .error e
      | .ok ⟨ps1, hp1⟩ => .ok ⟨(.bool true, ps1), hp1⟩
    else if h6 : ps.tok.type = .tFalse then
      match eatS .tFalse ps (by simp) with
      | .error e => .error e
      | .ok ⟨ps1, hp1⟩ => .ok ⟨(.bool false, ps1), hp1⟩
    else if h7 : ps.tok.type = .tNull then
      match eatS .tNull ps (by simp) with
      | .error e => .error e
      | .ok ⟨ps1, hp1⟩ => .ok ⟨(.null, ps1), hp1⟩
    else if h8 : ps.tok.type = .eof then
      .error (.unexpectedEndOfInput .jsonValue ps.tok.line ps.tok.column)
    else
      .error (.unexpectedToken .jsonValueFull ps.tok.type ps.tok.line ps.tok.column)
  | n + 1, .objLoop props, ps, h =>
    -- while current != RIGHT_BRACE ... ; on exit _eat(RIGHT_BRACE)
    if h1 : ps.tok.type = .rightBrace then
      match eatS .rightBrace ps (by simp) with
      | .error e => .error e
      | .ok ⟨ps1, hp1⟩ => .ok ⟨(.obj props, ps1), hp1⟩
    else if h2 : ps.tok.type = .eof then
      .error (.unexpectedEndOfInput .rightBraceD ps.tok.line ps.tok.column)
    else if h3 : ps.tok.type = .string then
      -- key_token = current; key = _parse_string().to_native()
      match eatS .string ps (by simp) with
      | .error e => .error e
      | .ok ⟨ps1, hp1⟩ =>
        if (lookupProp (getStr ps.tok.value) props).isSome then
          .error (.duplicateKey (getStr ps.tok.value) ps.tok.line ps.tok.column)
        else
          match eatS .colon ps1 (by simp) with
          | .error e => .error e
          | .ok ⟨ps2, hp2⟩ =>
            match parseGo n .value ps2 (by simp only [muM, modeRank] at *; omega) with
            | .error e => .error e
            | .ok ⟨vps, hp3⟩ =>
              match parseGo n (.objAfter (props ++ [(getStr ps.tok.value, vps.1)])) vps.2
                  (by simp only [muM, modeRank] at *; omega) with
              | .error e => .error e
              | .ok ⟨rps, hp4⟩ => .ok ⟨rps, by omega⟩
    else
      .error (.unexpectedToken .stringKey ps.tok.type ps.tok.line ps.tok.column)
  | n + 1, .objAfter props, ps, h =>
    -- after properties[key] = value: comma / end-of-input / close handling
    if h1 : ps.tok.type = .comma then
      match eatS .comma ps (by simp) with
      | .error e => .error e
      | .ok ⟨ps1, hp1⟩ =>
        if ps1.tok.type = .rightBrace then
          .error (.trailingCommaObject ps1.tok.line ps1.tok.column)
        else
          match parseGo n (.objLoop props) ps1 (by simp only [muM, modeRank] at *; omega) with
          | .error e => .error e
          | .ok ⟨rps, hp2⟩ => .ok ⟨rps, by omega⟩
    else if h2 : ps.tok.type = .eof then
      .error (.unexpectedEndOfInput .commaOrRightBrace ps.tok.line ps.tok.column)
    else if h3 : ps.tok.type = .rightBrace then
      -- loop condition now false: exit the loop and _eat(RIGHT_BRACE)
      match eatS .rightBrace ps (by simp) with
      | .error e => .error e
      | .ok ⟨ps1, hp1⟩ => .ok ⟨(.obj props, ps1), hp1⟩
    else
      .error (.unexpectedToken .commaOrRightBrace ps.tok.type ps.tok.line ps.tok.column)
  | n + 1, .arrLoop elts, ps, h =>
    -- while current != RIGHT_BRACKET ... ; on exit _eat(RIGHT_BRACKET)
    if h1 : ps.tok.type = .rightBracket then
      match eatS .rightBracket ps (by simp) with
      | .error e => .error e
      | .ok ⟨ps1, hp1⟩ => .ok ⟨(.arr elts, ps1), hp1⟩
    else if h2 : ps.tok.type = .eof then
      .error (.unexpectedEndOfInput .rightBracketD ps.tok.line ps.tok.column)
    else
      match parseGo n .value ps (by simp only [muM, modeRank] at *; omega) with
      | .error e => .error e
      | .ok ⟨vps, hp1⟩ =>
        match parseGo n (.arrAfter (elts ++ [vps.1])) vps.2
            (by simp only [muM, modeRank] at *; omega) with
        | .error e => .error e
        | .ok ⟨rps, hp2⟩ => .ok ⟨rps, by omega⟩
  | n + 1, .arrAfter elts, ps, h =>
    if h1 : ps.tok.type = .comma then
      match eatS .comma ps (by simp) with
      | .error e => .error e
      | .ok ⟨ps1, hp1⟩ =>
        if ps1.tok.type = .rightBracket then
          .error (.trailingCommaArray ps1.tok.line ps1.tok.column)
        else
          match parseGo n (.arrLoop elts) ps1 (by simp only [muM, modeRank] at *; omega) with
          | .error e => .error e
          | .ok ⟨rps, hp2⟩ => .ok ⟨rps, by omega⟩
    else if h2 : ps.tok.type = .eof then
      .error (.unexpectedEndOfInput .commaOrRightBracket ps.tok.line ps.tok.column)
    else if h3 : ps.tok.type = .rightBracket then
      match eatS .rightBracket ps (by simp) with
      | .error e => .error e
      | .ok ⟨ps1, hp1⟩ => .ok ⟨(.arr elts, ps1), hp1⟩
    else
      .error (.unexpectedToken .commaOrRightBracket ps.tok.type ps.tok.line ps.tok.column)
termination_by structural n _ _ _ => n

/-- `parseGo` at a control point, with the measure proof projected away. -/
def runMode (m : PMode) (fu : Nat) (ps : PState) (h : muM m ps < fu) :
    Except JsonError (JsonValue × PState) :=
  (parseGo fu m ps h).map Subtype.val

/-- `Parser.__init__`: construct the tokenizer at line 1, column 1 and pull
the first token. -/
def initState (s : PyStr) : Except JsonError PState :=
  match nextToken ⟨s, 1, 1⟩ with
  | .error e => .error e
  | .ok (t, l) => .ok ⟨t, l⟩

/-- The `self._parse_value()` call inside `Parser.parse`, starting from a
fresh parser on input `s`; returns the value and the parser state after it
(whose current token is the one-token lookahead). -/
def parseTopValue (s : PyStr) : Except JsonError (JsonValue × PState) :=
  match initState s with
  | .error e => .error e
  | .ok ps => runMode .value (muM .value ps + 1) ps (Nat.lt_succ_self _)

/-- `Parser.parse` on input `s`: parse one value, then require the current
token to be EOF, else `MalformedJsonException("Extra data after JSON
document")` at that token's position. -/
def parsePy (s : PyStr) : Except JsonError JsonValue :=
  match parseTopValue s with
  | .error e => .error e
  | .ok (v, ps2) =>
    if ps2.tok.type = .eof then .ok v
    else .error (.extraData ps2.tok.line ps2.tok.column)

/-- Code points of a Lean string literal (used only to write concrete test
inputs readably). -/
def strCodes (s : String) : PyStr := s.data.map Char.toNat

/-! The value model of `models.py`: `to_native` and `__eq__`. -/

/-- A native Python value as produced by `to_native`: `None`, `bool`, `int`,
`float`, `str`, `list`, `dict` (insertion-ordered). -/
inductive PyVal where
  | none
  | bool (b : Bool)
  | int (i : Int)
  | float (f : DecFloat)
  | str (s : PyStr)
  | list (xs : List PyVal)
  | dict (kvs : List (PyStr × PyVal))

/-- First binding of a key in a native dict. -/
def lookupPV (k : PyStr) : List (PyStr × PyVal) → Option PyVal
  | [] => none
  | (k2, v) :: rest => if k2 = k then some v else lookupPV k rest

/-- Python dict assignment `d[k] = v`: overwrite in place if the key exists,
else append. -/
def pyDictSet (kvs : List (PyStr × PyVal)) (k : PyStr) (v : PyVal) :
    List (PyStr × PyVal) :=
  match kvs with
  | [] => [(k, v)]
  | (k2, w) :: rest =>
    if k2 = k then (k2, v) :: rest else (k2, w) :: pyDictSet rest k v

/-! `JsonValue.to_native` (with `JsonObject.to_native`'s dict comprehension
building the dict binding by binding). -/

mutual

def toNative : JsonValue → PyVal
  | .str s => .str s
  | .num (.int i) => .int i
  | .num (.float f) => .float f
  | .bool b => .bool b
  | .null => .none
  | .arr xs => .list (toNativeList xs)
  | .obj kvs => .dict (toNativeDict kvs [])

def toNativeList : List JsonValue → List PyVal
  | [] => []
  | v :: rest => toNative v :: toNativeList rest

def toNativeDict : List (PyStr × JsonValue) → List (PyStr × PyVal) →
    List (PyStr × PyVal)
  | [], acc => acc
  | (k, v) :: rest, acc => toNativeDict rest (pyDictSet acc k (toNative v))

end

/-- Numeric view of a native value for Python `==`: Python compares `bool`
(as 0/1), `int` and `float` by numeric value across types. -/
def numRepPy : PyVal → Option (Int × Int)
  | .bool b => some (if b then 1 else 0, 0)
  | .int i => some (i, 0)
  | .float f => some (f.mant, f.exp10)
  | _ => none

/-- Equality of two exact decimal values `m1 * 10 ^ e1 = m2 * 10 ^ e2`. -/
def decEqB : Int × Int → Int × Int → Bool
  | (m1, e1), (m2, e2) =>
    if e2 ≤ e1 then decide (m1 * 10 ^ (e1 - e2).toNat = m2)
    else decide (m1 = m2 * 10 ^ (e2 - e1).toNat)

/-! Python `==` on native values: `None` only equals `None`; numbers and
booleans compare by numeric value across `bool`/`int`/`float`; strings by
content; lists pointwise; dicts by equal size plus per-key lookup (exactly
Python's dict equality, on the unique-keyed dicts `to_native` produces). -/

mutual

def pyEq : PyVal → PyVal → Bool
  | .none, .none => true
  | .str s, .str t => decide (s = t)
  | .list xs, .list ys => pyEqList xs ys
  | .dict xs, .dict ys => decide (xs.length = ys.length) && pyEqDictSub xs ys
  | a, b =>
    match numRepPy a, numRepPy b with
    | some x, some y => decEqB x y
    | _, _ => false

def pyEqList : List PyVal → List PyVal → Bool
  | [], [] => true
  | x :: xs, y :: ys => pyEq x y && pyEqList xs ys
  | _, _ => false

def pyEqDictSub : List (PyStr × PyVal) → List (PyStr × PyVal) → Bool
  | [], _ => true
  | (k, v) :: rest, ys =>
    (match lookupPV k ys with
     | some w => pyEq v w
     | Option.none => false) && pyEqDictSub rest ys

end

/-- `JsonValue.__eq__`: compare the native conversions with Python `==`. -/
def jsonEq (a b : JsonValue) : Bool := pyEq (toNative a) (toNative b)

/-! The alternative parser of `parser.py`. Its tokenizer and token model
(`models.TokenType`, `Tokenizer.get_next_token`) are not in the source tree;
they are modelled from the specification and from their use in `parser.py`
and `test_parser.py`: a pull-based tokenizer handing out tokens with
BOOLEAN/NULL/UNKNOWN kinds and native-value payloads, yielding EOF tokens
once exhausted. The parser functions themselves are transcribed from
`parser.py`. -/

/-- Modelled from the spec: the `TokenType` of the missing `models.py`
module used by `parser.py` (seen in `parser.py`/`test_parser.py`:
LEFT_BRACE, RIGHT_BRACE, LEFT_BRACKET, RIGHT_BRACKET, COLON, COMMA, STRING,
NUMBER, BOOLEAN, NULL, UNKNOWN, EOF). -/
inductive TokenType2 where
  | leftBrace | rightBrace | leftBracket | rightBracket
  | colon | comma | string | number | boolean | null | unknown | eof
  deriving DecidableEq

/-- Modelled from the spec: a token of the missing tokenizer used by
`parser.py`, carrying its kind, native-value payload, and position. -/
structure Token2 where
  type : TokenType2
  value : PyVal
  line : Nat
  column : Nat

/-- Modelled from the spec: one `get_next_token()` pull from a stream of
tokens; at exhaustion the tokenizer keeps returning an EOF token. -/
def next2 : List Token2 → Token2 × List Token2
  | [] => (⟨.eof, .none, 0, 0⟩, [])
  | t :: r => (t, r)

/-- Errors of `exceptions.py` (`JsonParseException`), one constructor per
message template raised in `parser.py`:
`expectedTok` is `_expect`'s "Expected X, got Y";
`expectedStringKey` is "Expected string key, got X";
`expectedCommaOrBrace` / `expectedCommaOrBracket` are the "Expected ',' or
..." messages; `unexpectedCharacter2 v` is "Unexpected character: v";
`unexpectedToken2 t` is "Unexpected token: t";
`extraData2` is "Extra data after JSON object". -/
inductive Json2Error where
  | expectedTok (expected : TokenType2) (got : TokenType2) (line col : Nat)
  | expectedStringKey (got : TokenType2) (line col : Nat)
  | expectedCommaOrBrace (got : TokenType2) (line col : Nat)
  | expectedCommaOrBracket (got : TokenType2) (line col : Nat)
  | unexpectedCharacter2 (v : PyVal) (line col : Nat)
  | unexpectedToken2 (t : TokenType2) (line col : Nat)
  | extraData2 (line col : Nat)

/-- State of `parser.py`'s `Parser`: current token plus the remaining
stream. -/
structure P2State where
  tok : Token2
  stream : List Token2

def mu2 (ps : P2State) : Nat :=
  ps.stream.length + (if ps.tok.type = .eof then 0 else 1)

/-- `Parser._advance` of `parser.py` (total: this tokenizer reports bad
characters as UNKNOWN tokens instead of raising). -/
def advance2 (ps : P2State) : P2State :=
  ⟨(next2 ps.stream).1, (next2 ps.stream).2⟩

theorem advance2_mu (ps : P2State) (hne : ps.tok.type ≠ .eof) :
    mu2 (advance2 ps) < mu2 ps := by
  match hs : ps.stream with
  | [] => simp [advance2, next2, mu2, hs, hne]
  | t :: r =>
    simp [advance2, next2, mu2, hs, hne]
    split <;> omega

/-- `Parser._advance` packaged with its measure decrease. -/
def advance2S (ps : P2State) (hne : ps.tok.type ≠ .eof) :
    {ps2 : P2State // mu2 ps2 < mu2 ps} :=
  ⟨advance2 ps, advance2_mu ps hne⟩

/-- `Parser._expect` of `parser.py`. -/
def expect2 (tt : TokenType2) (ps : P2State) (hne : tt ≠ TokenType2.eof) :
    Except Json2Error {ps2 : P2State // mu2 ps2 < mu2 ps} :=
  if h : ps.tok.type = tt then
    .ok (advance2S ps (by rw [h]; exact hne))
  else
    .error (.expectedTok tt ps.tok.type ps.tok.line ps.tok.column)

/-- Extract the string payload of a key token (`key = token.value`). -/
def keyOf : PyVal → PyStr
  | .str s => s
  | _ => []

/-- Control points of `parser.py`: `_parse_value`, the `while True` loop of
`_parse_object` (after `{` and the empty-object check), and the loop of
`_parse_array`. -/
inductive P2Mode where
  | value
  | objLoop (acc : List (PyStr × PyVal))
  | arrLoop (acc : List PyVal)

def modeRank2 : P2Mode → Nat
  | .value => 0
  | .objLoop _ => 1
  | .arrLoop _ => 1

def muM2 (m : P2Mode) (ps : P2State) : Nat := 2 * mu2 ps + modeRank2 m

/-- The parser of `parser.py`, transcribed branch by branch over the control
points of `P2Mode`. Note `_parse_object` performs `obj[key] = value` with
Python dict assignment (`pyDictSet`), which silently overwrites an existing
key — there is no duplicate-key check in this parser. -/
def parse2Go : (n : Nat) → (m : P2Mode) → (ps : P2State) → muM2 m ps < n →
    Except Json2Error {r : PyVal × P2State // mu2 r.2 < mu2 ps}
  | 0, _, _, h => absurd h (by omega)
  | n + 1, .value, ps, h =>
    if h1 : ps.tok.type = .leftBrace then
      -- _parse_object: _expect(LEFT_BRACE); empty-object check; else loop
      match expect2 .leftBrace ps (by simp) with
      | .error e => .error e
      | .ok ⟨ps1, hp1⟩ =>
        if hrb : ps1.tok.type = .rightBrace then
          .ok ⟨(.dict [], (advance2S ps1 (by simp [hrb])).1),
            lt_trans (advance2S ps1 (by simp [hrb])).2 hp1⟩
        else
          match parse2Go n (.objLoop []) ps1 (by simp only [muM2, modeRank2] at *; omega) with
          | .error e => .error e
          | .ok ⟨rps, hp2⟩ => .ok ⟨rps, by omega⟩
    else if h2 : ps.tok.type = .leftBracket then
      match expect2 .leftBracket ps (by simp) with
      | .error e => .error e
      | .ok ⟨ps1, hp1⟩ =>
        if hrb : ps1.tok.type = .rightBracket then
          .ok ⟨(.list [], (advance2S ps1 (by simp [hrb])).1),
            lt_trans (advance2S ps1 (by simp [hrb])).2 hp1⟩
        else
          match parse2Go n (.arrLoop []) ps1 (by simp only [muM2, modeRank2] at *; omega) with
          | .error e => .error e
          | .ok ⟨rps, hp2⟩ => .ok ⟨rps, by omega⟩
    else if h3 : ps.tok.type = .string ∨ ps.tok.type = .number ∨
        ps.tok.type = .boolean ∨ ps.tok.type = .null then
      .ok ⟨(ps.tok.value, (advance2S ps (by rcases h3 with h | h | h | h <;> simp [h])).1),
        (advance2S ps (by rcases h3 with h | h | h | h <;> simp [h])).2⟩
    else if h4 : ps.tok.type = .unknown then
      .error (.unexpectedCharacter2 ps.tok.value ps.tok.line ps.tok.column)
    else
      .error (.unexpectedToken2 ps.tok.type ps.tok.line ps.tok.column)
  | n + 1, .objLoop acc, ps, h =>
    -- while True: require a string key, ':', a value; obj[key] = value
    if h1 : ps.tok.type = .string then
      let a1 := advance2S ps (by simp [h1])
      match expect2 .colon a1.1 (by simp) with
      | .error e => .error e
      | .ok ⟨ps2, hp2⟩ =>
        match parse2Go n .value ps2
            (by
              have := a1.2
              simp only [muM2, modeRank2] at *
              omega) with
        | .error e => .error e
        | .ok ⟨vps, hp3⟩ =>
          -- obj[key] = value (silent overwrite on a duplicate key)
          if h5 : vps.2.tok.type = TokenType2.comma then
            let a5 := advance2S vps.2 (by simp [h5])
            match parse2Go n (.objLoop (pyDictSet acc (keyOf ps.tok.value) vps.1)) a5.1
                (by
                  have h6 := (advance2S ps (by simp [h1])).2
                  have h7 := a5.2
                  simp only [muM2, modeRank2] at *
                  omega) with
            | .error e => .error e
            | .ok ⟨rps, hp4⟩ =>
              .ok ⟨rps,
                lt_trans hp4 (lt_trans a5.2 (lt_trans hp3 (lt_trans hp2 a1.2)))⟩
          else if h6 : vps.2.tok.type = TokenType2.rightBrace then
            -- break, then _expect(RIGHT_BRACE)
            .ok ⟨(.dict (pyDictSet acc (keyOf ps.tok.value) vps.1),
                (advance2S vps.2 (by simp [h6])).1),
              lt_trans (advance2S vps.2 (by simp [h6])).2
                (lt_trans hp3 (lt_trans hp2 a1.2))⟩
          else
            .error (.expectedCommaOrBrace vps.2.tok.type vps.2.tok.line vps.2.tok.column)
    else
      .error (.expectedStringKey ps.tok.type ps.tok.line ps.tok.column)
  | n + 1, .arrLoop acc, ps, h =>
    match parse2Go n .value ps (by simp only [muM2, modeRank2] at *; omega) with
    | .error e => .error e
    | .ok ⟨vps, hp1⟩ =>
      if h5 : vps.2.tok.type = TokenType2.comma then
        let a5 := advance2S vps.2 (by simp [h5])
        match parse2Go n (.arrLoop (acc ++ [vps.1])) a5.1
            (by
              have h7 := a5.2
              simp only [muM2, modeRank2] at *
              omega) with
        | .error e => .error e
        | .ok ⟨rps, hp4⟩ =>
          .ok ⟨rps, lt_trans hp4 (lt_trans a5.2 hp1)⟩
      else if h6 : vps.2.tok.type = TokenType2.rightBracket then
        -- break, then _expect(RIGHT_BRACKET)
        .ok ⟨(.list (acc ++ [vps.1]), (advance2S vps.2 (by simp [h6])).1),
          lt_trans (advance2S vps.2 (by simp [h6])).2 hp1⟩
      else
        .error (.expectedCommaOrBracket vps.2.tok.type vps.2.tok.line vps.2.tok.column)
termination_by structural n _ _ _ => n

/-- `Parser.parse` of `parser.py` on a stream of tokens: `__init__` pulls the
first token; parse one value; then require EOF, else
`JsonParseException("Extra data after JSON object")`. -/
def parse2 (toks : List Token2) : Except Json2Error PyVal :=
  match parse2Go (muM2 .value ⟨(next2 toks).1, (next2 toks).2⟩ + 1) .value
      ⟨(next2 toks).1, (next2 toks).2⟩ (Nat.lt_succ_self _) with
  | .error e => .error e
  | .ok ⟨(v, ps2), _⟩ =>
    if ps2.tok.type = .eof then .ok v
    else .error (.extraData2 ps2.tok.line ps2.tok.column)

/-! Claim theorems. -/

theorem isHexDigit_ne_nl (x : Nat) (h : isHexDigit x = true) : x ≠ 10 := by
  intro h10
  rw [h10] at h
  exact absurd h (by decide)

/-- C6 (amended): inside a string body, a raw unescaped newline makes
`_read_string` fail with `UnterminatedStringException` at the string's
start position, while a raw unescaped carriage return is accepted into the
string's value (appended like any ordinary character) — only `"\n"` is
rejected, not `"\r"`. -/
theorem C6_unterminated_newline_amended :
    (∀ (sl sc l c : Nat) (acc r : List Nat),
      readStringGo sl sc acc (10 :: r) l c = .error (.unterminatedString sl sc)) ∧
    (∀ (sl sc l c : Nat) (acc r : List Nat),
      readStringGo sl sc acc (13 :: r) l c =
        readStringGo sl sc (acc ++ [13]) r l (c + 1)) := by
  constructor
  · intro sl sc l c acc r
    rw [readStringGo_chr _ _ _ _ _ _ _ (by decide)]
    simp [adv1]
  · intro sl sc l c acc r
    rw [readStringGo_chr _ _ _ _ _ _ _ (by decide)]
    simp [adv1]

/-- C6 counterexample: the input `"a<CR>b"` (a raw carriage return inside a
string) is accepted by `parse`, with the carriage return in the value —
the claim says it must fail with `UnterminatedString`. -/
theorem C6_counterexample :
    parsePy (strCodes ("\"a\rb\"")) = .ok (.str [97, 13, 98]) := rfl

/-- C10: a `\uXXXX` escape whose four hex digits encode a UTF-16 surrogate
code unit (here stated for any hex digits, in particular D800–DFFF) is
accepted by `_read_string`, appending exactly that single code unit to the
accumulated value and continuing after the six escape characters — so two
consecutive surrogate escapes each append their own code unit and are never
combined, as the second conjunct shows on the surrogate pair D83D/DE00,
which lexes to those two code units rather than to U+1F600. -/
theorem C10_surrogate_escape :
    (∀ (sl sc l c : Nat) (acc : List Nat) (h1 h2 h3 h4 : Nat) (r : List Nat),
      isHexDigit h1 = true → isHexDigit h2 = true →
      isHexDigit h3 = true → isHexDigit h4 = true →
      55296 ≤ hexVal4 h1 h2 h3 h4 → hexVal4 h1 h2 h3 h4 ≤ 57343 →
      readStringGo sl sc acc (92 :: 117 :: h1 :: h2 :: h3 :: h4 :: r) l c =
        readStringGo sl sc (acc ++ [hexVal4 h1 h2 h3 h4]) r l (c + 6)) ∧
    parsePy (strCodes ("\"\\uD83D\\uDE00\"")) = .ok (.str [55357, 56832]) := by
  constructor
  · intro sl sc l c acc h1 h2 h3 h4 r hx1 hx2 hx3 hx4 hlo hhi
    rw [readStringGo_u4]
    rw [if_pos (by simp [hx1, hx2, hx3, hx4])]
    have n1 := isHexDigit_ne_nl h1 hx1
    have n2 := isHexDigit_ne_nl h2 hx2
    have n3 := isHexDigit_ne_nl h3 hx3
    have n4 := isHexDigit_ne_nl h4 hx4
    simp [advN, adv1, n1, n2, n3, n4]
  · rfl

/-- C10 witness: the first escape of `"😀"` concretely, with every
hypothesis discharged. -/
theorem C10_surrogate_escape_witness :
    (isHexDigit 68 = true ∧ isHexDigit 56 = true ∧ isHexDigit 51 = true ∧
      isHexDigit 68 = true ∧ 55296 ≤ hexVal4 68 56 51 68 ∧
      hexVal4 68 56 51 68 ≤ 57343) ∧
    readStringGo 1 1 [] (92 :: 117 :: 68 :: 56 :: 51 :: 68 :: [92, 117, 68, 69, 48, 48, 34])
        1 2 =
      readStringGo 1 1 ([] ++ [hexVal4 68 56 51 68]) [92, 117, 68, 69, 48, 48, 34] 1 (2 + 6) :=
  ⟨by decide,
    C10_surrogate_escape.1 1 1 1 2 [] 68 56 51 68 [92, 117, 68, 69, 48, 48, 34]
      (by decide) (by decide) (by decide) (by decide) (by decide) (by decide)⟩

theorem skipWsGo_not_space (r : List Nat) (l c : Nat) (ch : Nat)
    (h : pyIsSpace ch = false) : skipWsGo (ch :: r) l c = ⟨ch :: r, l, c⟩ := by
  rw [skipWsGo]
  simp [h]

/-- C4 (amended): before each token the lexer skips exactly the characters
on which Python's `str.isspace` is true — which, beyond space, tab, `\n`
and `\r`, includes `\v`, `\f`, `\x1c`–`\x1f`, `\x85`, `\xa0` and the
Unicode space separators — and a character that is not `isspace` and starts
no token production (none of the structural characters, not a quote, not
`-` or an `isdigit` character, and not the start of `true`/`false`/`null`)
raises `MalformedJsonException("Unexpected character: ...")` at its
position. -/
theorem C4_whitespace_amended :
    (∀ (ch : Nat) (r : List Nat) (l c : Nat),
      pyIsSpace ch = true →
      nextToken ⟨ch :: r, l, c⟩ = nextToken ⟨r, (adv1 ch l c).1, (adv1 ch l c).2⟩) ∧
    (∀ (ch : Nat) (r : List Nat) (l c : Nat),
      pyIsSpace ch = false →
      ch ∉ ([123, 125, 91, 93, 58, 44, 34, 45] : List Nat) →
      pyIsDigit ch = false →
      ¬ List.isPrefixOf [116, 114, 117, 101] (ch :: r) →
      ¬ List.isPrefixOf [102, 97, 108, 115, 101] (ch :: r) →
      ¬ List.isPrefixOf [110, 117, 108, 108] (ch :: r) →
      nextToken ⟨ch :: r, l, c⟩ = .error (.unexpectedCharacter ch l c)) := by
  constructor
  · intro ch r l c hsp
    unfold nextToken skipWs
    rw [skipWsGo]
    simp [hsp]
  · intro ch r l c hsp hstruct hdig ht hf hn
    unfold nextToken skipWs
    simp only []
    rw [skipWsGo_not_space _ _ _ _ hsp]
    rw [nextTokenCore]
    simp only [List.mem_cons] at hstruct
    push_neg at hstruct
    obtain ⟨n1, n2, n3, n4, n5, n6, n7, n8, -⟩ := hstruct
    rw [if_neg n1, if_neg n2, if_neg n3, if_neg n4, if_neg n5, if_neg n6,
      if_neg n7]
    rw [if_neg (by simp [n8, hdig])]
    rw [if_neg ht, if_neg hf, if_neg hn]

/-- C4 witness: `@` between tokens is an unexpected character, while a form
feed (`\x0c`) is skipped like whitespace. -/
theorem C4_whitespace_amended_witness :
    (pyIsSpace 12 = true ∧
      nextToken ⟨[12, 49], 1, 1⟩ = nextToken ⟨[49], (adv1 12 1 1).1, (adv1 12 1 1).2⟩) ∧
    (pyIsSpace 64 = false ∧
      nextToken ⟨[64], 1, 3⟩ = .error (.unexpectedCharacter 64 1 3)) :=
  ⟨⟨by decide, C4_whitespace_amended.1 12 [49] 1 1 (by decide)⟩,
    ⟨by decide, C4_whitespace_amended.2 64 [] 1 3 (by decide) (by decide)
      (by decide) (by decide) (by decide) (by decide)⟩⟩

/-- C4 counterexample: a form feed between tokens is silently skipped —
`parse` accepts the input `"\x0c1"` — where the claim requires an
`UnexpectedCharacter` error for any whitespace other than space, tab,
`\n`, `\r`. -/
theorem C4_counterexample :
    parsePy (strCodes ("\x0c1")) = .ok (.num (.int 1)) := rfl

/-- C2 (amended): after an object entry or array element has been parsed, a
comma immediately followed by the closing `\x7d`/`]` makes the parser fail
with the trailing-comma `MalformedJsonException` for that context, at the
closing token's position (first two conjuncts, at the post-entry and
post-element control points; proved end to end on `\x7b"a": 1,\x7d` and
`[1,2,]`). But a comma with no preceding element is instead rejected
before the trailing-comma check can run: at the object loop head as an
`UnexpectedTokenException` expecting a string key, at the array loop head
by `_parse_value` as one expecting a JSON value (third and fourth
conjuncts, and `\x7b,\x7d` end to end; see also the counterexample
`[,]`). -/
theorem C2_trailing_comma_amended :
    (∀ (props : List (PyStr × JsonValue)) (ps : PState) (fu : Nat)
      (h : muM (.objAfter props) ps < fu) (ps1 : PState),
      ps.tok.type = .comma → advanceP ps = .ok ps1 → ps1.tok.type = .rightBrace →
      runMode (.objAfter props) fu ps h =
        .error (.trailingCommaObject ps1.tok.line ps1.tok.column)) ∧
    (∀ (elts : List JsonValue) (ps : PState) (fu : Nat)
      (h : muM (.arrAfter elts) ps < fu) (ps1 : PState),
      ps.tok.type = .comma → advanceP ps = .ok ps1 → ps1.tok.type = .rightBracket →
      runMode (.arrAfter elts) fu ps h =
        .error (.trailingCommaArray ps1.tok.line ps1.tok.column)) ∧
    (∀ (props : List (PyStr × JsonValue)) (ps : PState) (fu : Nat)
      (h : muM (.objLoop props) ps < fu),
      ps.tok.type = .comma →
      runMode (.objLoop props) fu ps h =
        .error (.unexpectedToken .stringKey .comma ps.tok.line ps.tok.column)) ∧
    (∀ (elts : List JsonValue) (ps : PState) (fu : Nat)
      (h : muM (.arrLoop elts) ps < fu),
      ps.tok.type = .comma →
      runMode (.arrLoop elts) fu ps h =
        .error (.unexpectedToken .jsonValueFull .comma ps.tok.line ps.tok.column)) ∧
    parsePy (strCodes ("\x7b\"a\": 1,\x7d")) = .error (.trailingCommaObject 1 9) ∧
    parsePy (strCodes ("[1,2,]")) = .error (.trailingCommaArray 1 6) ∧
    parsePy (strCodes ("\x7b,\x7d")) =
      .error (.unexpectedToken .stringKey .comma 1 2) := by
  refine ⟨?_, ?_, ?_, ?_, rfl, rfl, rfl⟩
  · intro props ps fu h ps1 hc hadv hrb
    match fu, h with
    | fu + 1, h =>
      obtain ⟨hp, hs⟩ := advanceS_ok ps (by simp [hc]) ps1 hadv
      rw [runMode, parseGo]
      rw [dif_pos hc]
      unfold eatS
      rw [dif_pos hc, hs]
      simp [Except.map, hrb]
  · intro elts ps fu h ps1 hc hadv hrb
    match fu, h with
    | fu + 1, h =>
      obtain ⟨hp, hs⟩ := advanceS_ok ps (by simp [hc]) ps1 hadv
      rw [runMode, parseGo]
      rw [dif_pos hc]
      unfold eatS
      rw [dif_pos hc, hs]
      simp [Except.map, hrb]
  · intro props ps fu h hc
    match fu, h with
    | fu + 1, h =>
      rw [runMode, parseGo]
      rw [dif_neg (by simp [hc]), dif_neg (by simp [hc]), dif_neg (by simp [hc])]
      simp [Except.map, hc]
  · intro elts ps fu h hc
    match fu, h with
    | fu + 1, h =>
      have hmu : 1 ≤ mu ps := by
        simp only [mu, hc]
        simp
      have hfu : 1 ≤ fu := by
        simp only [muM, modeRank] at h
        omega
      obtain ⟨fu2, rfl⟩ : ∃ m, fu = m + 1 := ⟨fu - 1, by omega⟩
      rw [runMode, parseGo]
      rw [dif_neg (by simp [hc]), dif_neg (by simp [hc])]
      rw [parseGo]
      rw [dif_neg (by simp [hc]), dif_neg (by simp [hc]), dif_neg (by simp [hc]),
        dif_neg (by simp [hc]), dif_neg (by simp [hc]), dif_neg (by simp [hc]),
        dif_neg (by simp [hc]), dif_neg (by simp [hc])]
      simp [Except.map, hc]

/-- C2 witness: the comma-then-close step concretely, at the state the
parser reaches inside `\x7b"a": 1,\x7d` after the entry for key `"a"`. -/
theorem C2_trailing_comma_amended_witness :
    ((⟨⟨.comma, .none, 1, 8⟩, ⟨[125], 1, 9⟩⟩ : PState).tok.type = .comma ∧
      advanceP ⟨⟨.comma, .none, 1, 8⟩, ⟨[125], 1, 9⟩⟩ =
        .ok ⟨⟨.rightBrace, .none, 1, 9⟩, ⟨[], 1, 10⟩⟩ ∧
      runMode (.objAfter [([97], .num (.int 1))]) 6
          ⟨⟨.comma, .none, 1, 8⟩, ⟨[125], 1, 9⟩⟩ (by decide) =
        .error (.trailingCommaObject 1 9)) ∧
    ((⟨⟨.comma, .none, 1, 5⟩, ⟨[93], 1, 6⟩⟩ : PState).tok.type = .comma ∧
      advanceP ⟨⟨.comma, .none, 1, 5⟩, ⟨[93], 1, 6⟩⟩ =
        .ok ⟨⟨.rightBracket, .none, 1, 6⟩, ⟨[], 1, 7⟩⟩ ∧
      runMode (.arrAfter [.num (.int 1), .num (.int 2)]) 6
          ⟨⟨.comma, .none, 1, 5⟩, ⟨[93], 1, 6⟩⟩ (by decide) =
        .error (.trailingCommaArray 1 6)) :=
  ⟨⟨rfl, rfl,
      C2_trailing_comma_amended.1 [([97], .num (.int 1))]
        ⟨⟨.comma, .none, 1, 8⟩, ⟨[125], 1, 9⟩⟩ 6 (by decide)
        ⟨⟨.rightBrace, .none, 1, 9⟩, ⟨[], 1, 10⟩⟩ rfl rfl rfl⟩,
    ⟨rfl, rfl,
      C2_trailing_comma_amended.2.1 [.num (.int 1), .num (.int 2)]
        ⟨⟨.comma, .none, 1, 5⟩, ⟨[93], 1, 6⟩⟩ 6 (by decide)
        ⟨⟨.rightBracket, .none, 1, 6⟩, ⟨[], 1, 7⟩⟩ rfl rfl rfl⟩⟩

/-- C2 counterexample: in `[,]` the comma is immediately followed by the
closing `]`, yet `parse` fails with `UnexpectedTokenException` (expecting a
JSON value), not with the trailing-comma error. -/
theorem C2_counterexample :
    parsePy (strCodes ("[,]")) =
      .error (.unexpectedToken .jsonValueFull .comma 1 2) := rfl

/-- C1 (amended): in the reference parser (`parser_ref.py`), whenever the
object loop meets a STRING key token whose key is already bound in the
object being built, it fails with `DuplicateKeyException` naming that key
at the key token's position (the first conjunct; the hypothesis asks only
that the token after the key lexes), and `parse` on
`\x7b"a":1,"a":2\x7d` fails that way end to end (second conjunct) — no
overwrite happens. The alternative parser (`parser.py`) instead silently
overwrites the earlier binding, keeping the last value — see the
counterexample. -/
theorem C1_duplicate_key_amended :
    (∀ (props : List (PyStr × JsonValue)) (ps : PState) (fu : Nat)
      (h : muM (.objLoop props) ps < fu) (ps1 : PState) (k : PyStr),
      ps.tok.type = .string → getStr ps.tok.value = k →
      (lookupProp k props).isSome = true → advanceP ps = .ok ps1 →
      runMode (.objLoop props) fu ps h =
        .error (.duplicateKey k ps.tok.line ps.tok.column)) ∧
    parsePy (strCodes ("\x7b\"a\":1,\"a\":2\x7d")) =
      .error (.duplicateKey [97] 1 8) := by
  refine ⟨?_, rfl⟩
  intro props ps fu h ps1 k hstr hk hsome hadv
  match fu, h with
  | fu + 1, h =>
    obtain ⟨hp, hs⟩ := advanceS_ok ps (by simp [hstr]) ps1 hadv
    rw [runMode, parseGo]
    rw [dif_neg (by simp [hstr]), dif_neg (by simp [hstr]), dif_pos hstr]
    unfold eatS
    rw [dif_pos hstr, hs]
    rw [hk]
    simp [Except.map, hsome]

/-- C1 witness: the duplicate-key step concretely, at the state the parser
reaches inside `\x7b"a":1,"a":2\x7d` when it meets the second `"a"`. -/
theorem C1_duplicate_key_amended_witness :
    (⟨⟨.string, .str [97], 1, 8⟩, ⟨[58, 50, 125], 1, 11⟩⟩ : PState).tok.type = .string ∧
    getStr (⟨⟨.string, .str [97], 1, 8⟩, ⟨[58, 50, 125], 1, 11⟩⟩ : PState).tok.value = [97] ∧
    (lookupProp [97] [([97], JsonValue.num (.int 1))]).isSome = true ∧
    advanceP ⟨⟨.string, .str [97], 1, 8⟩, ⟨[58, 50, 125], 1, 11⟩⟩ =
      .ok ⟨⟨.colon, .none, 1, 11⟩, ⟨[50, 125], 1, 12⟩⟩ ∧
    runMode (.objLoop [([97], JsonValue.num (.int 1))]) 10
        ⟨⟨.string, .str [97], 1, 8⟩, ⟨[58, 50, 125], 1, 11⟩⟩ (by decide) =
      .error (.duplicateKey [97] 1 8) :=
  ⟨rfl, rfl, by decide, rfl,
    C1_duplicate_key_amended.1 [([97], JsonValue.num (.int 1))]
      ⟨⟨.string, .str [97], 1, 8⟩, ⟨[58, 50, 125], 1, 11⟩⟩ 10 (by decide)
      ⟨⟨.colon, .none, 1, 11⟩, ⟨[50, 125], 1, 12⟩⟩ [97] rfl rfl (by decide) rfl⟩

/-- C1 counterexample: `parser.py` silently overwrites a duplicate object
key — on the token stream of `\x7b"a":1,"a":2\x7d` its `parse` succeeds
with the single binding `a ↦ 2` instead of failing with a duplicate-key
error. -/
theorem C1_counterexample :
    parse2 [⟨.leftBrace, .none, 1, 1⟩, ⟨.string, .str [97], 1, 2⟩,
      ⟨.colon, .none, 1, 5⟩, ⟨.number, .int 1, 1, 6⟩, ⟨.comma, .none, 1, 7⟩,
      ⟨.string, .str [97], 1, 8⟩, ⟨.colon, .none, 1, 11⟩, ⟨.number, .int 2, 1, 12⟩,
      ⟨.rightBrace, .none, 1, 13⟩, ⟨.eof, .none, 1, 14⟩] =
      .ok (.dict [([97], .int 2)]) := rfl

/-- C5 (amended): when the value parse succeeds and the one-token lookahead
already pulled past it is not EOF, `parse` fails with the extra-data
`MalformedJsonException` at that token's position (first conjunct; in
particular for well-formed values followed by characters that lex to a
valid token, as in the second conjunct). But when the trailing characters
do not form a valid token, the parser's eager lookahead pull raises the
lexer's error instead of `ExtraData` — see the counterexample. -/
theorem C5_extra_data_amended :
    (∀ (s : PyStr) (v : JsonValue) (ps2 : PState),
      parseTopValue s = .ok (v, ps2) → ps2.tok.type ≠ .eof →
      parsePy s = .error (.extraData ps2.tok.line ps2.tok.column)) ∧
    parsePy (strCodes ("[1,2] \"string\"")) = .error (.extraData 1 7) := by
  refine ⟨?_, rfl⟩
  intro s v ps2 hpv hne
  unfold parsePy
  rw [hpv]
  simp [hne]

/-- C5 witness: on `1 2` the lookahead after the value `1` is the NUMBER
token `2` at column 3, and `parse` reports extra data there. -/
theorem C5_extra_data_amended_witness :
    parseTopValue (strCodes ("1 2")) =
      .ok (.num (.int 1), ⟨⟨.number, .num (.int 2), 1, 3⟩, ⟨[], 1, 4⟩⟩) ∧
    (⟨⟨.number, .num (.int 2), 1, 3⟩, ⟨[], 1, 4⟩⟩ : PState).tok.type ≠ .eof ∧
    parsePy (strCodes ("1 2")) = .error (.extraData 1 3) :=
  ⟨rfl, by decide,
    C5_extra_data_amended.1 (strCodes ("1 2")) (.num (.int 1))
      ⟨⟨.number, .num (.int 2), 1, 3⟩, ⟨[], 1, 4⟩⟩ rfl (by decide)⟩

/-- C5 counterexample: `1 @` is a well-formed value followed by a
non-whitespace character, but `parse` fails with
`MalformedJsonException("Unexpected character: @")` from the lexer, not
with `ExtraData`. -/
theorem C5_counterexample :
    parsePy (strCodes ("1 @")) = .error (.unexpectedCharacter 64 1 3) := rfl

/-! Nesting depth (C9). `_parse_value` recurses once per `[` with no
counter, and no depth-limit error class exists: the development below
proves that the parser accepts the input `[`^n `0` `]`^n at every `n`, so
no maximum nesting depth bounds the recursion. (On a real Python call
stack this unbounded recursion crashes with `RecursionError` once `n`
exceeds the interpreter's recursion limit, instead of failing with a
dedicated parse error.) -/

/-- The value `[[...[0]...]]` with `n` array layers. -/
def nestVal : Nat → JsonValue
  | 0 => .num (.int 0)
  | n + 1 => .arr [nestVal n]

/-- Unconsumed input after the current token at a `_parse_value` entry of
the nesting input: `k` further opening brackets, the digit, then the `t`
pending closing brackets (for `k = 0` only the closers remain). -/
def nestRest : Nat → Nat → PyStr
  | 0, t => List.replicate t 93
  | k + 1, t => List.replicate k 91 ++ 48 :: List.replicate t 93

/-- The current token at a `_parse_value` entry of the nesting input. -/
def nestTok : Nat → Nat → Token
  | 0, col => ⟨.number, .num (.int 0), 1, col⟩
  | _ + 1, col => ⟨.leftBracket, .none, 1, col⟩

/-- The parser state entering `_parse_value` with `k` opening brackets
still unread before the digit and `t` closing brackets pending in total,
the current token at column `col` of line 1. -/
def nestPS (k t col : Nat) : PState :=
  ⟨nestTok k col, ⟨nestRest k t, 1, col + 1⟩⟩

/-- The parser state right after a nested value: the lookahead token at
column `col` is the next closing bracket while `j` of them remain, EOF at
`j = 0`. -/
def nestAfter : Nat → Nat → PState
  | 0, col => ⟨⟨.eof, .none, 1, col⟩, ⟨[], 1, col⟩⟩
  | j + 1, col => ⟨⟨.rightBracket, .none, 1, col⟩, ⟨List.replicate j 93, 1, col + 1⟩⟩

theorem takeWhile_nestClose (j : Nat) :
    (List.replicate j 93).takeWhile numScanChar = [] := by
  cases j with
  | zero => rfl
  | succ j =>
    rw [List.replicate_succ, List.takeWhile_cons]
    simp [show numScanChar 93 = false from by decide]

theorem nextToken_open (r : List Nat) (l c : Nat) :
    nextToken ⟨91 :: r, l, c⟩ = .ok (⟨.leftBracket, .none, l, c⟩, ⟨r, l, c + 1⟩) := by
  have hs : skipWs ⟨91 :: r, l, c⟩ = ⟨91 :: r, l, c⟩ :=
    skipWsGo_not_space r l c 91 (by decide)
  unfold nextToken
  rw [hs, nextTokenCore]
  norm_num [advN, adv1]

theorem nextToken_close (r : List Nat) (l c : Nat) :
    nextToken ⟨93 :: r, l, c⟩ = .ok (⟨.rightBracket, .none, l, c⟩, ⟨r, l, c + 1⟩) := by
  have hs : skipWs ⟨93 :: r, l, c⟩ = ⟨93 :: r, l, c⟩ :=
    skipWsGo_not_space r l c 93 (by decide)
  unfold nextToken
  rw [hs, nextTokenCore]
  norm_num [advN, adv1]

theorem nextToken_digitNest (j l c : Nat) :
    nextToken ⟨48 :: List.replicate j 93, l, c⟩ =
      .ok (⟨.number, .num (.int 0), l, c⟩, ⟨List.replicate j 93, l, c + 1⟩) := by
  have hs : skipWs ⟨48 :: List.replicate j 93, l, c⟩ = ⟨48 :: List.replicate j 93, l, c⟩ :=
    skipWsGo_not_space _ l c 48 (by decide)
  have hrun : (48 :: List.replicate j 93).takeWhile numScanChar = [48] := by
    rw [List.takeWhile_cons, if_pos (show numScanChar 48 = true from by decide),
      takeWhile_nestClose]
  unfold nextToken
  rw [hs, nextTokenCore]
  rw [if_neg (by decide), if_neg (by decide), if_neg (by decide), if_neg (by decide),
    if_neg (by decide), if_neg (by decide), if_neg (by decide), if_pos (by decide)]
  simp only [readNumber, hrun]
  rw [if_pos (by decide)]
  simp [advN, adv1, show numValOfRun [48] = PyNum.int 0 from by decide]

theorem advanceP_nestNum (t col : Nat) :
    advanceP (nestPS 0 t col) = .ok (nestAfter t (col + 1)) := by
  cases t with
  | zero => rfl
  | succ j =>
    show advanceP ⟨⟨.number, .num (.int 0), 1, col⟩,
      ⟨93 :: List.replicate j 93, 1, col + 1⟩⟩ = _
    unfold advanceP
    rw [nextToken_close]
    rfl

theorem advanceP_nestOpen (k t col : Nat) :
    advanceP (nestPS (k + 1) t col) = .ok (nestPS k t (col + 1)) := by
  cases k with
  | zero =>
    show advanceP ⟨⟨.leftBracket, .none, 1, col⟩,
      ⟨48 :: List.replicate t 93, 1, col + 1⟩⟩ = _
    unfold advanceP
    rw [nextToken_digitNest]
    rfl
  | succ k =>
    show advanceP ⟨⟨.leftBracket, .none, 1, col⟩,
      ⟨91 :: nestRest (k + 1) t, 1, col + 1⟩⟩ = _
    unfold advanceP
    rw [nextToken_open]
    rfl

theorem advanceP_nestClose (j col : Nat) :
    advanceP (nestAfter (j + 1) col) = .ok (nestAfter j (col + 1)) := by
  cases j with
  | zero => rfl
  | succ j =>
    show advanceP ⟨⟨.rightBracket, .none, 1, col⟩,
      ⟨93 :: List.replicate j 93, 1, col + 1⟩⟩ = _
    unfold advanceP
    rw [nextToken_close]
    rfl

theorem mu_nestPS (k t col : Nat) : mu (nestPS k t col) = (nestRest k t).length + 1 := by
  cases k <;> simp [mu, nestPS, nestTok]

theorem mu_nestAfter (j col : Nat) : mu (nestAfter j col) = j := by
  cases j <;> simp [mu, nestAfter]

theorem nestRest_len (k t : Nat) : t ≤ (nestRest k t).length := by
  cases k with
  | zero => simp [nestRest]
  | succ k =>
    simp [nestRest]
    omega

theorem except_map_ok {ε α : Type} {p : α → Prop} (e : Except ε {x : α // p x}) (y : α)
    (h : e.map Subtype.val = .ok y) : ∃ hp : p y, e = .ok ⟨y, hp⟩ := by
  match e with
  | .error e2 => simp [Except.map] at h
  | .ok ⟨x, hx⟩ =>
    simp [Except.map] at h
    cases h
    exact ⟨hx, rfl⟩

/-- The loop-exit branch of `_parse_array`: at a closing-bracket lookahead
the loop ends and `_eat(RIGHT_BRACKET)` pulls the next token. -/
theorem nest_arrAfter (elts : List JsonValue) (j col fu : Nat)
    (h : muM (.arrAfter elts) (nestAfter (j + 1) col) < fu) :
    runMode (.arrAfter elts) fu (nestAfter (j + 1) col) h =
      .ok (.arr elts, nestAfter j (col + 1)) := by
  match fu, h with
  | fu + 1, h =>
    obtain ⟨hp1, hs1⟩ := advanceS_ok (nestAfter (j + 1) col) (by simp [nestAfter]) _
      (advanceP_nestClose j col)
    rw [runMode, parseGo]
    rw [dif_neg (by simp [nestAfter]), dif_neg (by simp [nestAfter]),
      dif_pos (show (nestAfter (j + 1) col).tok.type = TokenType.rightBracket from rfl)]
    unfold eatS
    rw [dif_pos (show (nestAfter (j + 1) col).tok.type = TokenType.rightBracket from rfl), hs1]
    simp [Except.map]

/-- One array layer of the nesting input: `_parse_array` parses the inner
value of depth `k`, meets the closing bracket, and returns the singleton
array (given the depth-`k` statement as induction hypothesis). -/
theorem nest_arrLoop (k : Nat)
    (ih : ∀ (t col fu : Nat) (h : muM .value (nestPS k t col) < fu), k ≤ t →
      runMode .value fu (nestPS k t col) h =
        .ok (nestVal k, nestAfter (t - k) (col + 2 * k + 1)))
    (t col fu : Nat) (h : muM (.arrLoop []) (nestPS k t col) < fu) (hkt : k < t) :
    runMode (.arrLoop []) fu (nestPS k t col) h =
      .ok (.arr [nestVal k], nestAfter (t - (k + 1)) (col + 2 * k + 2)) := by
  match fu, h with
  | fu + 1, h =>
    have hh : 2 * mu (nestPS k t col) + 1 < fu + 1 := by
      simpa [muM, modeRank] using h
    have hmuv := mu_nestPS k t col
    have hlen := nestRest_len k t
    rw [runMode, parseGo]
    rw [dif_neg (by cases k <;> simp [nestPS, nestTok]),
      dif_neg (by cases k <;> simp [nestPS, nestTok])]
    have hv : muM .value (nestPS k t col) < fu := by
      simp only [muM, modeRank]
      omega
    have hIH := ih t col fu hv hkt.le
    rw [runMode, show t - k = t - (k + 1) + 1 from by omega] at hIH
    obtain ⟨hpv, hev⟩ := except_map_ok _ _ hIH
    rw [hev]
    have hA : muM (.arrAfter [nestVal k]) (nestAfter (t - (k + 1) + 1) (col + 2 * k + 1))
        < fu := by
      simp only [muM, modeRank, mu_nestAfter]
      omega
    have hAe := nest_arrAfter [nestVal k] (t - (k + 1)) (col + 2 * k + 1) fu hA
    rw [runMode, show col + 2 * k + 1 + 1 = col + 2 * k + 2 from by omega] at hAe
    obtain ⟨hpA, heA⟩ := except_map_ok _ _ hAe
    simp [Except.map, heA]

/-- `_parse_value` on the nesting input: depth `k` with `t ≥ k` closers
pending parses to the depth-`k` value, leaving the lookahead on the next
closer (or EOF). -/
theorem nest_parse (k : Nat) :
    ∀ (t col fu : Nat) (h : muM .value (nestPS k t col) < fu), k ≤ t →
      runMode .value fu (nestPS k t col) h =
        .ok (nestVal k, nestAfter (t - k) (col + 2 * k + 1)) := by
  induction k with
  | zero =>
    intro t col fu h _
    match fu, h with
    | fu + 1, h =>
      obtain ⟨hp1, hs1⟩ := advanceS_ok (nestPS 0 t col) (by simp [nestPS, nestTok]) _
        (advanceP_nestNum t col)
      rw [runMode, parseGo]
      rw [dif_neg (by simp [nestPS, nestTok]), dif_neg (by simp [nestPS, nestTok]),
        dif_neg (by simp [nestPS, nestTok]),
        dif_pos (show (nestPS 0 t col).tok.type = TokenType.number from rfl)]
      unfold eatS
      rw [dif_pos (show (nestPS 0 t col).tok.type = TokenType.number from rfl), hs1]
      simp [Except.map, nestPS, nestTok, getNum, nestVal]
  | succ k ih =>
    intro t col fu h hkt
    match fu, h with
    | fu + 1, h =>
      have hadv := advanceP_nestOpen k t col
      have hne : (nestPS (k + 1) t col).tok.type ≠ TokenType.eof := by
        simp [nestPS, nestTok]
      obtain ⟨hp1, hs1⟩ := advanceS_ok (nestPS (k + 1) t col) hne _ hadv
      have hmu1 : mu (nestPS k t (col + 1)) < mu (nestPS (k + 1) t col) :=
        advanceP_mu _ _ hadv hne
      have hh : 2 * mu (nestPS (k + 1) t col) < fu + 1 := by
        simpa [muM, modeRank] using h
      rw [runMode, parseGo]
      rw [dif_neg (by simp [nestPS, nestTok]),
        dif_pos (show (nestPS (k + 1) t col).tok.type = TokenType.leftBracket from rfl)]
      unfold eatS
      rw [dif_pos (show (nestPS (k + 1) t col).tok.type = TokenType.leftBracket from rfl),
        hs1]
      have hB : muM (.arrLoop []) (nestPS k t (col + 1)) < fu := by
        simp only [muM, modeRank]
        omega
      have hBe := nest_arrLoop k ih t (col + 1) fu hB hkt
      rw [runMode] at hBe
      rw [show col + 1 + 2 * k + 2 = col + 2 * (k + 1) + 1 from by ring] at hBe
      obtain ⟨hpB, heB⟩ := except_map_ok _ _ hBe
      simp [Except.map, heB, nestVal]

/-- C9: the source has no nesting-depth guard — `parse` accepts the input
`[`^n `0` `]`^n for every `n`, producing the depth-`n` value, so no
configurable maximum depth exists and no depth-limit error is ever raised;
on a real call stack, deep enough nesting crashes the recursive descent
with `RecursionError` instead of failing with a dedicated parse error. -/
theorem C9_no_depth_guard (n : Nat) :
    parsePy (List.replicate n 91 ++ 48 :: List.replicate n 93) = .ok (nestVal n) := by
  have hinit : initState (List.replicate n 91 ++ 48 :: List.replicate n 93) =
      .ok (nestPS n n 1) := by
    cases n with
    | zero =>
      unfold initState
      rw [show (List.replicate 0 91 ++ 48 :: List.replicate 0 93 : PyStr) =
        48 :: List.replicate 0 93 from rfl]
      rw [nextToken_digitNest]
      rfl
    | succ k =>
      unfold initState
      rw [show (List.replicate (k + 1) 91 ++ 48 :: List.replicate (k + 1) 93 : PyStr) =
        91 :: nestRest (k + 1) (k + 1) from rfl]
      rw [nextToken_open]
      rfl
  have hL := nest_parse n n 1 (muM .value (nestPS n n 1) + 1) (Nat.lt_succ_self _) le_rfl
  unfold parsePy parseTopValue
  rw [hinit]
  simp [hL, Nat.sub_self, nestAfter]

/-- C9 at a concrete depth: 40 nested arrays parse successfully (no
depth-limit error exists at any depth). -/
theorem C9_no_depth_guard_witness :
    parsePy (List.replicate 40 91 ++ 48 :: List.replicate 40 93) = .ok (nestVal 40) :=
  C9_no_depth_guard 40

/-! Number-run validation (C7). The source scans with `str.isdigit` (which
accepts non-ASCII decimal digits) and validates with `\d`; the
specification writes the ASCII scan set `{0-9, ., -, +, e, E}` and the
ASCII grammar. The congruence lemmas below show the two agree on ASCII
input; the C7 counterexample shows they differ on non-ASCII digits. -/

/-- Modelled from the spec: the validation policy's scan set
`{0-9, ., -, +, e, E}` (the source's `numScanChar` has Python
`str.isdigit` in place of `0-9`). -/
def specScanChar (c : Nat) : Bool :=
  asciiDigit c || decide (c ∈ ([46, 45, 43, 101, 69] : List Nat))

theorem pyIsDigit_ascii (c : Nat) (hc : c < 128) : pyIsDigit c = asciiDigit c := by
  simp only [pyIsDigit, asciiDigit, decide_eq_decide]
  omega

theorem reDigitD_ascii (c : Nat) (hc : c < 128) : reDigitD c = asciiDigit c := by
  simp only [reDigitD, asciiDigit, decide_eq_decide]
  omega

theorem numScanChar_ascii (c : Nat) (hc : c < 128) : numScanChar c = specScanChar c := by
  simp only [numScanChar, specScanChar, pyIsDigit_ascii c hc]

theorem takeWhile_congr128 (p q : Nat → Bool) (hpq : ∀ c, c < 128 → p c = q c) :
    ∀ (s : List Nat), (∀ c ∈ s, c < 128) → s.takeWhile p = s.takeWhile q := by
  intro s
  induction s with
  | nil => intro _; rfl
  | cons a l ih =>
    intro hs
    rw [List.takeWhile_cons, List.takeWhile_cons, hpq a (hs a (List.mem_cons_self a l))]
    by_cases hq : q a = true
    · rw [if_pos hq, if_pos hq, ih (fun c hc => hs c (List.mem_cons_of_mem a hc))]
    · rw [if_neg hq, if_neg hq]

theorem dropWhile_congr128 (p q : Nat → Bool) (hpq : ∀ c, c < 128 → p c = q c) :
    ∀ (s : List Nat), (∀ c ∈ s, c < 128) → s.dropWhile p = s.dropWhile q := by
  intro s
  induction s with
  | nil => intro _; rfl
  | cons a l ih =>
    intro hs
    rw [List.dropWhile_cons, List.dropWhile_cons, hpq a (hs a (List.mem_cons_self a l))]
    by_cases hq : q a = true
    · rw [if_pos hq, if_pos hq, ih (fun c hc => hs c (List.mem_cons_of_mem a hc))]
    · rw [if_neg hq, if_neg hq]

theorem mem_of_mem_takeWhile128 (p : Nat → Bool) :
    ∀ (s : List Nat) (c : Nat), c ∈ s.takeWhile p → c ∈ s := by
  intro s
  induction s with
  | nil => intro c hc; simpa using hc
  | cons a l ih =>
    intro c hc
    rw [List.takeWhile_cons] at hc
    by_cases hp : p a = true
    · rw [if_pos hp] at hc
      rcases List.mem_cons.1 hc with h | h
      · exact h ▸ List.mem_cons_self a l
      · exact List.mem_cons_of_mem a (ih c h)
    · rw [if_neg hp] at hc
      simp at hc

theorem mem_of_mem_dropWhile128 (p : Nat → Bool) :
    ∀ (s : List Nat) (c : Nat), c ∈ s.dropWhile p → c ∈ s := by
  intro s
  induction s with
  | nil => intro c hc; simpa using hc
  | cons a l ih =>
    intro c hc
    rw [List.dropWhile_cons] at hc
    by_cases hp : p a = true
    · rw [if_pos hp] at hc
      exact List.mem_cons_of_mem a (ih c hc)
    · rw [if_neg hp] at hc
      exact hc

theorem reMatchInt_congr (s : List Nat) (hs : ∀ c ∈ s, c < 128) :
    reMatchInt reDigitD s = reMatchInt asciiDigit s := by
  cases s with
  | nil => rfl
  | cons c r =>
    rw [reMatchInt, reMatchInt]
    by_cases h48 : c = 48
    · rw [if_pos h48, if_pos h48]
    · rw [if_neg h48, if_neg h48]
      by_cases h19 : 49 ≤ c ∧ c ≤ 57
      · rw [if_pos h19, if_pos h19,
          dropWhile_congr128 reDigitD asciiDigit reDigitD_ascii r
            (fun x hx => hs x (List.mem_cons_of_mem c hx))]
      · rw [if_neg h19, if_neg h19]

theorem reMatchInt_mem (d : Nat → Bool) (s r1 : List Nat)
    (h : reMatchInt d s = some r1) : ∀ c ∈ r1, c ∈ s := by
  cases s with
  | nil => rw [reMatchInt] at h; exact absurd h (by simp)
  | cons c r =>
    rw [reMatchInt] at h
    by_cases h48 : c = 48
    · rw [if_pos h48] at h
      simp only [Option.some.injEq] at h
      subst h
      exact fun x hx => List.mem_cons_of_mem c hx
    · rw [if_neg h48] at h
      by_cases h19 : 49 ≤ c ∧ c ≤ 57
      · rw [if_pos h19] at h
        simp only [Option.some.injEq] at h
        subst h
        exact fun x hx => List.mem_cons_of_mem c (mem_of_mem_dropWhile128 d r x hx)
      · rw [if_neg h19] at h
        exact absurd h (by simp)

theorem reMatchFrac_dot (d : Nat → Bool) (r : List Nat) :
    reMatchFrac d (46 :: r) =
      if r.takeWhile d = [] then none else some (r.dropWhile d) := by
  rw [reMatchFrac]

theorem reMatchFrac_other (d : Nat → Bool) (c : Nat) (r : List Nat) (h46 : c ≠ 46) :
    reMatchFrac d (c :: r) = some (c :: r) := by
  rw [reMatchFrac]
  all_goals (intros; simp_all)

theorem reMatchFrac_congr (s : List Nat) (hs : ∀ c ∈ s, c < 128) :
    reMatchFrac reDigitD s = reMatchFrac asciiDigit s := by
  cases s with
  | nil => rfl
  | cons c r =>
    by_cases h46 : c = 46
    · subst h46
      have hr : ∀ x ∈ r, x < 128 := fun x hx => hs x (List.mem_cons_of_mem 46 hx)
      rw [reMatchFrac_dot, reMatchFrac_dot,
        takeWhile_congr128 reDigitD asciiDigit reDigitD_ascii r hr,
        dropWhile_congr128 reDigitD asciiDigit reDigitD_ascii r hr]
    · rw [reMatchFrac_other reDigitD c r h46, reMatchFrac_other asciiDigit c r h46]

theorem reMatchFrac_mem (d : Nat → Bool) (s r1 : List Nat)
    (h : reMatchFrac d s = some r1) : ∀ c ∈ r1, c ∈ s := by
  cases s with
  | nil =>
    rw [show reMatchFrac d [] = some [] from rfl] at h
    simp only [Option.some.injEq] at h
    subst h
    exact fun x hx => hx
  | cons c r =>
    by_cases h46 : c = 46
    · subst h46
      rw [reMatchFrac_dot] at h
      by_cases htw : r.takeWhile d = []
      · rw [if_pos htw] at h
        exact absurd h (by simp)
      · rw [if_neg htw] at h
        simp only [Option.some.injEq] at h
        subst h
        exact fun x hx => List.mem_cons_of_mem 46 (mem_of_mem_dropWhile128 d r x hx)
    · rw [reMatchFrac_other d c r h46] at h
      simp only [Option.some.injEq] at h
      subst h
      exact fun x hx => hx

theorem reMatchExp_eEnd (d : Nat → Bool) (c : Nat) (hE : c = 101 ∨ c = 69) :
    reMatchExp d [c] = none := by
  rw [reMatchExp, if_pos hE]
  show (if ([] : List Nat).takeWhile d = [] then none
    else some (([] : List Nat).dropWhile d)) = none
  simp

theorem reMatchExp_eSign (d : Nat → Bool) (c a : Nat) (r3 : List Nat)
    (hE : c = 101 ∨ c = 69) (ha : a = 43 ∨ a = 45) :
    reMatchExp d (c :: a :: r3) =
      if r3.takeWhile d = [] then none else some (r3.dropWhile d) := by
  rw [reMatchExp, if_pos hE]
  show (if (if a = 43 ∨ a = 45 then r3 else a :: r3).takeWhile d = [] then none
    else some ((if a = 43 ∨ a = 45 then r3 else a :: r3).dropWhile d)) = _
  rw [if_pos ha]

theorem reMatchExp_eNoSign (d : Nat → Bool) (c a : Nat) (r3 : List Nat)
    (hE : c = 101 ∨ c = 69) (ha : ¬(a = 43 ∨ a = 45)) :
    reMatchExp d (c :: a :: r3) =
      if (a :: r3).takeWhile d = [] then none else some ((a :: r3).dropWhile d) := by
  rw [reMatchExp, if_pos hE]
  show (if (if a = 43 ∨ a = 45 then r3 else a :: r3).takeWhile d = [] then none
    else some ((if a = 43 ∨ a = 45 then r3 else a :: r3).dropWhile d)) = _
  rw [if_neg ha]

theorem reMatchExp_other (d : Nat → Bool) (c : Nat) (r : List Nat)
    (hE : ¬(c = 101 ∨ c = 69)) : reMatchExp d (c :: r) = some (c :: r) := by
  cases r with
  | nil => rw [reMatchExp, if_neg hE]
  | cons a r3 => rw [reMatchExp, if_neg hE]

theorem reMatchExp_congr (s : List Nat) (hs : ∀ c ∈ s, c < 128) :
    reMatchExp reDigitD s = reMatchExp asciiDigit s := by
  cases s with
  | nil => rfl
  | cons c r =>
    by_cases hE : c = 101 ∨ c = 69
    · cases r with
      | nil => rw [reMatchExp_eEnd reDigitD c hE, reMatchExp_eEnd asciiDigit c hE]
      | cons a r3 =>
        have h3 : ∀ x ∈ r3, x < 128 :=
          fun x hx => hs x (List.mem_cons_of_mem c (List.mem_cons_of_mem a hx))
        have ha3 : ∀ x ∈ a :: r3, x < 128 := fun x hx => hs x (List.mem_cons_of_mem c hx)
        by_cases hsg : a = 43 ∨ a = 45
        · rw [reMatchExp_eSign reDigitD c a r3 hE hsg,
            reMatchExp_eSign asciiDigit c a r3 hE hsg,
            takeWhile_congr128 reDigitD asciiDigit reDigitD_ascii r3 h3,
            dropWhile_congr128 reDigitD asciiDigit reDigitD_ascii r3 h3]
        · rw [reMatchExp_eNoSign reDigitD c a r3 hE hsg,
            reMatchExp_eNoSign asciiDigit c a r3 hE hsg,
            takeWhile_congr128 reDigitD asciiDigit reDigitD_ascii (a :: r3) ha3,
            dropWhile_congr128 reDigitD asciiDigit reDigitD_ascii (a :: r3) ha3]
    · rw [reMatchExp_other reDigitD c r hE, reMatchExp_other asciiDigit c r hE]

theorem reMatchExp_mem (d : Nat → Bool) (s r1 : List Nat)
    (h : reMatchExp d s = some r1) : ∀ c ∈ r1, c ∈ s := by
  cases s with
  | nil =>
    rw [show reMatchExp d [] = some [] from rfl] at h
    simp only [Option.some.injEq] at h
    subst h
    exact fun x hx => hx
  | cons c r =>
    by_cases hE : c = 101 ∨ c = 69
    · cases r with
      | nil => rw [reMatchExp_eEnd d c hE] at h; exact absurd h (by simp)
      | cons a r3 =>
        by_cases hsg : a = 43 ∨ a = 45
        · rw [reMatchExp_eSign d c a r3 hE hsg] at h
          by_cases htw : r3.takeWhile d = []
          · rw [if_pos htw] at h
            exact absurd h (by simp)
          · rw [if_neg htw] at h
            simp only [Option.some.injEq] at h
            subst h
            exact fun x hx => List.mem_cons_of_mem c
              (List.mem_cons_of_mem a (mem_of_mem_dropWhile128 d r3 x hx))
        · rw [reMatchExp_eNoSign d c a r3 hE hsg] at h
          by_cases htw : (a :: r3).takeWhile d = []
          · rw [if_pos htw] at h
            exact absurd h (by simp)
          · rw [if_neg htw] at h
            simp only [Option.some.injEq] at h
            subst h
            exact fun x hx => List.mem_cons_of_mem c
              (mem_of_mem_dropWhile128 d (a :: r3) x hx)
    · rw [reMatchExp_other d c r hE] at h
      simp only [Option.some.injEq] at h
      subst h
      exact fun x hx => hx

theorem reChain_congr (s1 : List Nat) (hs1 : ∀ c ∈ s1, c < 128) :
    reChain reDigitD s1 = reChain asciiDigit s1 := by
  rw [reChain, reChain, reMatchInt_congr s1 hs1]
  cases h1 : reMatchInt asciiDigit s1 with
  | none => simp [h1]
  | some r1 =>
    have hr1 : ∀ c ∈ r1, c < 128 :=
      fun c hc => hs1 c (reMatchInt_mem asciiDigit s1 r1 h1 c hc)
    simp only [h1]
    rw [reMatchFrac_congr r1 hr1]
    cases h2 : reMatchFrac asciiDigit r1 with
    | none => simp [h2]
    | some r2 =>
      have hr2 : ∀ c ∈ r2, c < 128 :=
        fun c hc => hr1 c (reMatchFrac_mem asciiDigit r1 r2 h2 c hc)
      simp only [h2]
      rw [reMatchExp_congr r2 hr2]

theorem stripMinus_minus (r : List Nat) : stripMinus (45 :: r) = (-1, r) := by
  rw [stripMinus]

theorem stripMinus_other (c : Nat) (r : List Nat) (h45 : c ≠ 45) :
    stripMinus (c :: r) = (1, c :: r) := by
  rw [stripMinus]
  all_goals (intros; simp_all)

theorem stripMinus_subset (s : List Nat) : ∀ c, c ∈ (stripMinus s).2 → c ∈ s := by
  cases s with
  | nil => intro c hc; exact hc
  | cons a r =>
    by_cases h45 : a = 45
    · subst h45
      rw [stripMinus_minus]
      exact fun c hc => List.mem_cons_of_mem 45 hc
    · rw [stripMinus_other a r h45]
      exact fun c hc => hc

theorem reFullmatch_ascii (s : List Nat) (hs : ∀ c ∈ s, c < 128) :
    reFullmatch reDigitD s = reFullmatch asciiDigit s := by
  have hs1 : ∀ c ∈ (stripMinus s).2, c < 128 :=
    fun c hc => hs c (stripMinus_subset s c hc)
  rw [reFullmatch, reFullmatch]
  exact reChain_congr (stripMinus s).2 hs1

/-- C7 (amended): on ASCII input the scanned run is exactly the maximal run
from the claimed scan set `{0-9, ., -, +, e, E}` (first conjunct), and a
run that is not a full match of the ASCII number grammar fails with
`InvalidNumberException` carrying the run and its start position (second
conjunct); the spec's four examples `01`, `1.`, `1e+`, `0.0.1` all fail so
(remaining conjuncts). On non-ASCII decimal digits, which Python's
`str.isdigit` and `\d` both accept, the source scans and validates more
than the claimed ASCII sets — see the counterexample. -/
theorem C7_invalid_number_amended :
    (∀ (st : LexState), (∀ c ∈ st.rest, c < 128) →
      st.rest.takeWhile numScanChar = st.rest.takeWhile specScanChar) ∧
    (∀ (st : LexState) (run : PyStr), (∀ c ∈ st.rest, c < 128) →
      run = st.rest.takeWhile numScanChar → specNumberGrammar run = false →
      readNumber st = .error (.invalidNumber run st.line st.column)) ∧
    readNumber ⟨strCodes "01", 1, 1⟩ = .error (.invalidNumber (strCodes "01") 1 1) ∧
    readNumber ⟨strCodes "1.", 1, 1⟩ = .error (.invalidNumber (strCodes "1.") 1 1) ∧
    readNumber ⟨strCodes "1e+", 1, 1⟩ = .error (.invalidNumber (strCodes "1e+") 1 1) ∧
    readNumber ⟨strCodes "0.0.1", 1, 1⟩ =
      .error (.invalidNumber (strCodes "0.0.1") 1 1) := by
  refine ⟨?_, ?_, rfl, rfl, rfl, rfl⟩
  · intro st hst
    exact takeWhile_congr128 numScanChar specScanChar numScanChar_ascii st.rest hst
  · intro st run hst hrun hspec
    have hascii : ∀ c ∈ run, c < 128 := by
      rw [hrun]
      exact fun c hc => hst c (mem_of_mem_takeWhile128 numScanChar st.rest c hc)
    have hfm : numberFullmatch run = false := by
      rw [show numberFullmatch run = specNumberGrammar run from
        reFullmatch_ascii run hascii, hspec]
    simp only [readNumber]
    rw [← hrun, if_neg (by simp [hfm])]

/-- C7 witness: on `00` the scanned run `00` is not a full match of the
grammar and the lexer reports `InvalidNumberException("00")` at (1,1). -/
theorem C7_invalid_number_amended_witness :
    readNumber ⟨[48, 48], 1, 1⟩ = .error (.invalidNumber [48, 48] 1 1) :=
  C7_invalid_number_amended.2.1 ⟨[48, 48], 1, 1⟩ [48, 48] (by decide) rfl (by decide)

/-- C7 counterexample: on `1٣` (`٣` is the Arabic-Indic digit U+0663) the
scanned run is `1٣`, which is not a full match of the claimed ASCII
grammar, yet no `InvalidNumber` error is raised: `str.isdigit` admits the
digit into the run, `\d` matches it, and `parse` succeeds with the value
13. -/
theorem C7_counterexample :
    specNumberGrammar (strCodes "1٣") = false ∧
    parsePy (strCodes "1٣") = .ok (.num (.int 13)) :=
  ⟨rfl, rfl⟩

/-! Number values (C8). A valid literal assembled from a sign, an integer
part, an optional fraction and an optional exponent parses to the
numerically correct value, float-typed exactly when a `.` or an exponent
is present. -/

/-- Fraction text of a literal: `.` then the digits, when present. -/
def fpStr : Option (List Nat) → PyStr
  | none => []
  | some f => 46 :: f

/-- Exponent text of a literal: `e`/`E`, the optional sign, the digits. -/
def exStr : Option (Nat × Option Nat × List Nat) → PyStr
  | none => []
  | some (ec, none, ep) => ec :: ep
  | some (ec, some sg, ep) => ec :: sg :: ep

/-- A number literal assembled from its parts. -/
def numLit (neg : Bool) (ip : List Nat) (fp : Option (List Nat))
    (ex : Option (Nat × Option Nat × List Nat)) : PyStr :=
  (if neg then [45] else []) ++ (ip ++ (fpStr fp ++ exStr ex))

def fpDigits : Option (List Nat) → List Nat
  | none => []
  | some f => f

def exSign : Option (Nat × Option Nat × List Nat) → Int
  | none => 1
  | some (_, es, _) => if es = some 45 then -1 else 1

def exDigits : Option (Nat × Option Nat × List Nat) → List Nat
  | none => []
  | some (_, _, ep) => ep

/-- A well-formed integer part: `0`, or a nonzero leading digit followed by
digits. -/
def validIp (ip : List Nat) : Prop :=
  ip = [48] ∨ ∃ c ds, ip = c :: ds ∧ 49 ≤ c ∧ c ≤ 57 ∧ ∀ x ∈ ds, 48 ≤ x ∧ x ≤ 57

/-- A well-formed fraction: absent, or at least one digit. -/
def validFp : Option (List Nat) → Prop
  | none => True
  | some f => f ≠ [] ∧ ∀ x ∈ f, 48 ≤ x ∧ x ≤ 57

/-- A well-formed exponent: absent, or `e`/`E`, an optional `+`/`-`, and at
least one digit. -/
def validEx : Option (Nat × Option Nat × List Nat) → Prop
  | none => True
  | some (ec, es, ep) =>
    (ec = 101 ∨ ec = 69) ∧ (es = none ∨ es = some 43 ∨ es = some 45) ∧
      ep ≠ [] ∧ ∀ x ∈ ep, 48 ≤ x ∧ x ≤ 57

theorem reDigitD_of_digit (x : Nat) (h : 48 ≤ x ∧ x ≤ 57) : reDigitD x = true := by
  simp only [reDigitD, decide_eq_true_eq]
  omega

theorem numScanChar_of_digit (x : Nat) (h : 48 ≤ x ∧ x ≤ 57) : numScanChar x = true := by
  simp only [numScanChar, pyIsDigit, Bool.or_eq_true, decide_eq_true_eq]
  omega

theorem takeWhile_all (d : Nat → Bool) :
    ∀ (s : List Nat), (∀ x ∈ s, d x = true) → s.takeWhile d = s := by
  intro s
  induction s with
  | nil => intro _; rfl
  | cons a l ih =>
    intro hs
    rw [List.takeWhile_cons, if_pos (hs a (List.mem_cons_self a l)),
      ih (fun x hx => hs x (List.mem_cons_of_mem a hx))]

theorem dropWhile_all (d : Nat → Bool) :
    ∀ (s : List Nat), (∀ x ∈ s, d x = true) → s.dropWhile d = [] := by
  intro s
  induction s with
  | nil => intro _; rfl
  | cons a l ih =>
    intro hs
    rw [List.dropWhile_cons, if_pos (hs a (List.mem_cons_self a l))]
    exact ih (fun x hx => hs x (List.mem_cons_of_mem a hx))

theorem takeWhile_head_false (d : Nat → Bool) (t : List Nat)
    (h : ∀ c, t.head? = some c → d c = false) : t.takeWhile d = [] := by
  cases t with
  | nil => rfl
  | cons a l => rw [List.takeWhile_cons, if_neg (by simp [h a rfl])]

theorem dropWhile_head_false (d : Nat → Bool) (t : List Nat)
    (h : ∀ c, t.head? = some c → d c = false) : t.dropWhile d = t := by
  cases t with
  | nil => rfl
  | cons a l => rw [List.dropWhile_cons, if_neg (by simp [h a rfl])]

theorem takeWhile_append_all (d : Nat → Bool) (ds t : List Nat)
    (hds : ∀ x ∈ ds, d x = true) (ht : ∀ c, t.head? = some c → d c = false) :
    (ds ++ t).takeWhile d = ds := by
  induction ds with
  | nil => exact takeWhile_head_false d t ht
  | cons a l ih =>
    rw [List.cons_append, List.takeWhile_cons,
      if_pos (hds a (List.mem_cons_self a l)),
      ih (fun x hx => hds x (List.mem_cons_of_mem a hx))]

theorem dropWhile_append_all (d : Nat → Bool) (ds t : List Nat)
    (hds : ∀ x ∈ ds, d x = true) (ht : ∀ c, t.head? = some c → d c = false) :
    (ds ++ t).dropWhile d = t := by
  induction ds with
  | nil => exact dropWhile_head_false d t ht
  | cons a l ih =>
    rw [List.cons_append, List.dropWhile_cons,
      if_pos (hds a (List.mem_cons_self a l)),
      ih (fun x hx => hds x (List.mem_cons_of_mem a hx))]

theorem tail_head_not_digit (fp : Option (List Nat))
    (ex : Option (Nat × Option Nat × List Nat)) (hex : validEx ex) :
    ∀ c, (fpStr fp ++ exStr ex).head? = some c → reDigitD c = false := by
  cases fp with
  | some f =>
    intro c hc
    simp only [fpStr, List.cons_append, List.head?_cons, Option.some.injEq] at hc
    subst hc
    decide
  | none =>
    simp only [fpStr, List.nil_append]
    cases ex with
    | none => intro c hc; simp [exStr] at hc
    | some t =>
      obtain ⟨ec, es, ep⟩ := t
      obtain ⟨hec, -, -, -⟩ := hex
      cases es with
      | none =>
        intro c hc
        simp only [exStr, List.head?_cons, Option.some.injEq] at hc
        subst hc
        rcases hec with h | h <;> subst h <;> decide
      | some sg =>
        intro c hc
        simp only [exStr, List.head?_cons, Option.some.injEq] at hc
        subst hc
        rcases hec with h | h <;> subst h <;> decide

theorem ip_digits (ip : List Nat) (hip : validIp ip) : ∀ x ∈ ip, reDigitD x = true := by
  rcases hip with h | ⟨c, ds, h, h1, h2, hds⟩ <;> subst h
  · intro x hx
    simp only [List.mem_singleton] at hx
    subst hx
    decide
  · intro x hx
    rcases List.mem_cons.1 hx with h | h
    · subst h
      exact reDigitD_of_digit x ⟨by omega, h2⟩
    · exact reDigitD_of_digit x (hds x h)

theorem core_head (ip : List Nat) (t : List Nat) (hip : validIp ip) :
    ∃ c cs, ip ++ t = c :: cs ∧ 48 ≤ c ∧ c ≤ 57 := by
  rcases hip with h | ⟨c, ds, h, h1, h2, -⟩ <;> subst h
  · exact ⟨48, t, rfl, by omega, by omega⟩
  · exact ⟨c, ds ++ t, rfl, by omega, h2⟩

theorem stripMinus_lit (neg : Bool) (core : List Nat) (c : Nat) (cs : List Nat)
    (hcore : core = c :: cs) (hc : 48 ≤ c ∧ c ≤ 57) :
    stripMinus ((if neg then [45] else []) ++ core) =
      (if neg then (-1 : Int) else 1, core) := by
  subst hcore
  cases neg
  · simp only [Bool.false_eq_true, if_false, List.nil_append]
    exact stripMinus_other c cs (by omega)
  · simp only [if_true, List.cons_append, List.nil_append]
    exact stripMinus_minus (c :: cs)

theorem decompFrac_dot (r : List Nat) :
    decompFrac (46 :: r) = (r.takeWhile reDigitD, r.dropWhile reDigitD) := by
  rw [decompFrac]

theorem decompFrac_other (c : Nat) (r : List Nat) (h46 : c ≠ 46) :
    decompFrac (c :: r) = ([], c :: r) := by
  rw [decompFrac]
  all_goals (intros; simp_all)

theorem decompExp_plus (ec : Nat) (ep : List Nat) (hec : ec = 101 ∨ ec = 69) :
    decompExp (ec :: 43 :: ep) = (1, ep.takeWhile reDigitD) := by
  rw [decompExp, if_pos hec]

theorem decompExp_minus (ec : Nat) (ep : List Nat) (hec : ec = 101 ∨ ec = 69) :
    decompExp (ec :: 45 :: ep) = (-1, ep.takeWhile reDigitD) := by
  rw [decompExp, if_pos hec]

theorem decompExp_noSign (ec p : Nat) (ps : List Nat) (hec : ec = 101 ∨ ec = 69)
    (h43 : p ≠ 43) (h45 : p ≠ 45) :
    decompExp (ec :: p :: ps) = (1, (p :: ps).takeWhile reDigitD) := by
  rw [decompExp]
  · rw [if_pos hec]
  all_goals (intros; simp_all)

theorem decompFrac_lit (fp : Option (List Nat))
    (ex : Option (Nat × Option Nat × List Nat)) (hfp : validFp fp) (hex : validEx ex) :
    decompFrac (fpStr fp ++ exStr ex) = (fpDigits fp, exStr ex) := by
  cases fp with
  | some f =>
    obtain ⟨-, hdig⟩ := hfp
    simp only [fpStr, fpDigits, List.cons_append]
    rw [decompFrac_dot,
      takeWhile_append_all reDigitD f (exStr ex)
        (fun x hx => reDigitD_of_digit x (hdig x hx)) (tail_head_not_digit none ex hex),
      dropWhile_append_all reDigitD f (exStr ex)
        (fun x hx => reDigitD_of_digit x (hdig x hx)) (tail_head_not_digit none ex hex)]
  | none =>
    simp only [fpStr, fpDigits, List.nil_append]
    cases ex with
    | none => rfl
    | some t =>
      obtain ⟨ec, es, ep⟩ := t
      obtain ⟨hec, -, -, -⟩ := hex
      have h46 : ec ≠ 46 := by rcases hec with h | h <;> omega
      cases es with
      | none => exact decompFrac_other ec ep h46
      | some sg => exact decompFrac_other ec (sg :: ep) h46

theorem decompExp_lit (ex : Option (Nat × Option Nat × List Nat)) (hex : validEx ex) :
    decompExp (exStr ex) = (exSign ex, exDigits ex) := by
  cases ex with
  | none => rfl
  | some t =>
    obtain ⟨ec, es, ep⟩ := t
    obtain ⟨hec, hes, hne, hdig⟩ := hex
    have htw : ep.takeWhile reDigitD = ep :=
      takeWhile_all reDigitD ep (fun x hx => reDigitD_of_digit x (hdig x hx))
    cases es with
    | none =>
      cases ep with
      | nil => exact absurd rfl hne
      | cons p ps =>
        have hp := hdig p (List.mem_cons_self p ps)
        simp only [exStr, exSign, exDigits]
        rw [decompExp_noSign ec p ps hec (by omega) (by omega), htw]
        simp
    | some sg =>
      rcases hes with h | h | h
      · exact absurd h (by simp)
      · simp only [Option.some.injEq] at h
        subst h
        simp only [exStr, exSign, exDigits]
        rw [decompExp_plus ec ep hec, htw]
        simp
      · simp only [Option.some.injEq] at h
        subst h
        simp only [exStr, exSign, exDigits]
        rw [decompExp_minus ec ep hec, htw]
        simp

theorem numDecomp_lit (neg : Bool) (ip : List Nat) (fp : Option (List Nat))
    (ex : Option (Nat × Option Nat × List Nat))
    (hip : validIp ip) (hfp : validFp fp) (hex : validEx ex) :
    numDecomp (numLit neg ip fp ex) =
      ⟨if neg then -1 else 1, ip, fpDigits fp, exSign ex, exDigits ex⟩ := by
  obtain ⟨c, cs, hcs, hc⟩ := core_head ip (fpStr fp ++ exStr ex) hip
  have hnd := tail_head_not_digit fp ex hex
  have hipd := ip_digits ip hip
  simp only [numDecomp, numLit,
    stripMinus_lit neg (ip ++ (fpStr fp ++ exStr ex)) c cs hcs hc,
    takeWhile_append_all reDigitD ip (fpStr fp ++ exStr ex) hipd hnd,
    dropWhile_append_all reDigitD ip (fpStr fp ++ exStr ex) hipd hnd,
    decompFrac_lit fp ex hfp hex, decompExp_lit ex hex]

theorem numberFullmatch_lit (neg : Bool) (ip : List Nat) (fp : Option (List Nat))
    (ex : Option (Nat × Option Nat × List Nat))
    (hip : validIp ip) (hfp : validFp fp) (hex : validEx ex) :
    numberFullmatch (numLit neg ip fp ex) = true := by
  obtain ⟨c, cs, hcs, hc⟩ := core_head ip (fpStr fp ++ exStr ex) hip
  have hnd := tail_head_not_digit fp ex hex
  have hexnd := tail_head_not_digit none ex hex
  simp only [numberFullmatch, reFullmatch, numLit,
    stripMinus_lit neg (ip ++ (fpStr fp ++ exStr ex)) c cs hcs hc]
  rw [reChain]
  have hint : reMatchInt reDigitD (ip ++ (fpStr fp ++ exStr ex)) =
      some (fpStr fp ++ exStr ex) := by
    rcases hip with h | ⟨c1, ds, h, h1, h2, hds⟩ <;> subst h
    · rw [show ([48] : List Nat) ++ (fpStr fp ++ exStr ex) =
        48 :: (fpStr fp ++ exStr ex) from rfl, reMatchInt, if_pos rfl]
    · rw [List.cons_append, reMatchInt, if_neg (by omega), if_pos ⟨h1, h2⟩,
        dropWhile_append_all reDigitD ds (fpStr fp ++ exStr ex)
          (fun x hx => reDigitD_of_digit x (hds x hx)) hnd]
  simp only [hint]
  have hfrac : reMatchFrac reDigitD (fpStr fp ++ exStr ex) = some (exStr ex) := by
    cases fp with
    | some f =>
      obtain ⟨hne, hdig⟩ := hfp
      simp only [fpStr, List.cons_append]
      rw [reMatchFrac_dot,
        takeWhile_append_all reDigitD f (exStr ex)
          (fun x hx => reDigitD_of_digit x (hdig x hx)) hexnd,
        dropWhile_append_all reDigitD f (exStr ex)
          (fun x hx => reDigitD_of_digit x (hdig x hx)) hexnd,
        if_neg hne]
    | none =>
      simp only [fpStr, List.nil_append]
      cases ex with
      | none => rfl
      | some t =>
        obtain ⟨ec, es, ep⟩ := t
        obtain ⟨hec, -, -, -⟩ := hex
        have h46 : ec ≠ 46 := by rcases hec with h | h <;> omega
        cases es with
        | none => exact reMatchFrac_other reDigitD ec ep h46
        | some sg => exact reMatchFrac_other reDigitD ec (sg :: ep) h46
  simp only [hfrac]
  have hexp : reMatchExp reDigitD (exStr ex) = some [] := by
    cases ex with
    | none => rfl
    | some t =>
      obtain ⟨ec, es, ep⟩ := t
      obtain ⟨hec, hes, hne, hdig⟩ := hex
      have htw : ep.takeWhile reDigitD = ep :=
        takeWhile_all reDigitD ep (fun x hx => reDigitD_of_digit x (hdig x hx))
      have hdw : ep.dropWhile reDigitD = [] :=
        dropWhile_all reDigitD ep (fun x hx => reDigitD_of_digit x (hdig x hx))
      cases es with
      | none =>
        cases ep with
        | nil => exact absurd rfl hne
        | cons p ps =>
          have hp := hdig p (List.mem_cons_self p ps)
          simp only [exStr]
          rw [reMatchExp_eNoSign reDigitD ec p ps hec (by omega), htw, if_neg hne, hdw]
      | some sg =>
        rcases hes with h | h | h
        · exact absurd h (by simp)
        · simp only [Option.some.injEq] at h
          subst h
          simp only [exStr]
          rw [reMatchExp_eSign reDigitD ec 43 ep hec (by omega), htw, if_neg hne, hdw]
        · simp only [Option.some.injEq] at h
          subst h
          simp only [exStr]
          rw [reMatchExp_eSign reDigitD ec 45 ep hec (by omega), htw, if_neg hne, hdw]
  simp only [hexp]
  rfl

theorem digitsFold (b : List Nat) : ∀ (init : Nat),
    b.foldl (fun a c => 10 * a + digitVal c) init =
      init * 10 ^ b.length + digitsToNat b := by
  induction b with
  | nil => intro init; simp [digitsToNat]
  | cons c bs ih =>
    intro init
    have hd : digitsToNat (c :: bs) =
        bs.foldl (fun a x => 10 * a + digitVal x) (digitVal c) := by
      simp [digitsToNat, List.foldl_cons]
    rw [List.foldl_cons, ih, hd, ih]
    simp only [List.length_cons]
    ring

theorem digitsToNat_append (a b : List Nat) :
    digitsToNat (a ++ b) = digitsToNat a * 10 ^ b.length + digitsToNat b := by
  show (a ++ b).foldl (fun x c => 10 * x + digitVal c) 0 = _
  rw [List.foldl_append]
  exact digitsFold b (a.foldl (fun x c => 10 * x + digitVal c) 0)

theorem ip_head (ip : List Nat) (hip : validIp ip) :
    ∃ c cs, ip = c :: cs ∧ 48 ≤ c ∧ c ≤ 57 := by
  rcases hip with h | ⟨c, ds, h, h1, h2, -⟩ <;> subst h
  · exact ⟨48, [], rfl, by omega, by omega⟩
  · exact ⟨c, ds, rfl, by omega, h2⟩

theorem ip_bounds (ip : List Nat) (hip : validIp ip) : ∀ x ∈ ip, 48 ≤ x ∧ x ≤ 57 := by
  rcases hip with h | ⟨c, ds, h, h1, h2, hds⟩ <;> subst h
  · intro x hx
    simp only [List.mem_singleton] at hx
    omega
  · intro x hx
    rcases List.mem_cons.1 hx with h | h
    · subst h
      exact ⟨by omega, h2⟩
    · exact hds x h

theorem numLit_mem_cases (neg : Bool) (ip : List Nat) (fp : Option (List Nat))
    (ex : Option (Nat × Option Nat × List Nat)) (x : Nat)
    (hx : x ∈ numLit neg ip fp ex) :
    x = 45 ∨ x ∈ ip ∨ x ∈ fpStr fp ∨ x ∈ exStr ex := by
  simp only [numLit, List.mem_append] at hx
  rcases hx with h | h | h | h
  · cases neg
    · simp at h
    · simp only [if_true, List.mem_singleton] at h
      exact Or.inl h
  · exact Or.inr (Or.inl h)
  · exact Or.inr (Or.inr (Or.inl h))
  · exact Or.inr (Or.inr (Or.inr h))

theorem numLit_scan (neg : Bool) (ip : List Nat) (fp : Option (List Nat))
    (ex : Option (Nat × Option Nat × List Nat))
    (hip : validIp ip) (hfp : validFp fp) (hex : validEx ex) :
    ∀ x ∈ numLit neg ip fp ex, numScanChar x = true := by
  intro x hx
  rcases numLit_mem_cases neg ip fp ex x hx with h | h | h | h
  · subst h
    decide
  · exact numScanChar_of_digit x (ip_bounds ip hip x h)
  · cases fp with
    | none => simp [fpStr] at h
    | some f =>
      simp only [fpStr, List.mem_cons] at h
      rcases h with h | h
      · subst h
        decide
      · exact numScanChar_of_digit x (hfp.2 x h)
  · cases ex with
    | none => simp [exStr] at h
    | some t =>
      obtain ⟨ec, es, ep⟩ := t
      obtain ⟨hec, hes, -, hdig⟩ := hex
      cases es with
      | none =>
        simp only [exStr, List.mem_cons] at h
        rcases h with h | h
        · subst h
          rcases hec with he | he <;> subst he <;> decide
        · exact numScanChar_of_digit x (hdig x h)
      | some sg =>
        simp only [exStr, List.mem_cons] at h
        rcases h with h | h | h
        · subst h
          rcases hec with he | he <;> subst he <;> decide
        · subst h
          rcases hes with hs | hs | hs
          · exact absurd hs (by simp)
          · simp only [Option.some.injEq] at hs
            subst hs
            decide
          · simp only [Option.some.injEq] at hs
            subst hs
            decide
        · exact numScanChar_of_digit x (hdig x h)

theorem lit_contains_dot (neg : Bool) (ip : List Nat) (fp : Option (List Nat))
    (ex : Option (Nat × Option Nat × List Nat))
    (hip : validIp ip) (hex : validEx ex) :
    (numLit neg ip fp ex).contains 46 = fp.isSome := by
  cases fp with
  | some f =>
    simp only [Option.isSome_some]
    have hm : (46 : Nat) ∈ numLit neg ip (some f) ex := by
      simp [numLit, fpStr]
    simpa using hm
  | none =>
    simp only [Option.isSome_none]
    have hm : (46 : Nat) ∉ numLit neg ip none ex := by
      intro hmem
      rcases numLit_mem_cases neg ip none ex 46 hmem with h | h | h | h
      · omega
      · have := ip_bounds ip hip 46 h
        omega
      · simp [fpStr] at h
      · cases ex with
        | none => simp [exStr] at h
        | some t =>
          obtain ⟨ec, es, ep⟩ := t
          obtain ⟨hec, hes, -, hdig⟩ := hex
          cases es with
          | none =>
            simp only [exStr, List.mem_cons] at h
            rcases h with h | h
            · rcases hec with he | he <;> omega
            · have := hdig 46 h
              omega
          | some sg =>
            simp only [exStr, List.mem_cons] at h
            rcases h with h | h | h
            · rcases hec with he | he <;> omega
            · rcases hes with hs | hs | hs
              · exact absurd hs (by simp)
              · simp only [Option.some.injEq] at hs
                omega
              · simp only [Option.some.injEq] at hs
                omega
            · have := hdig 46 h
              omega
    simpa using hm

theorem lit_lower_e (neg : Bool) (ip : List Nat) (fp : Option (List Nat))
    (ex : Option (Nat × Option Nat × List Nat))
    (hip : validIp ip) (hfp : validFp fp) (hex : validEx ex) :
    ((numLit neg ip fp ex).map pyLower).contains 101 = ex.isSome := by
  cases ex with
  | some t =>
    obtain ⟨ec, es, ep⟩ := t
    obtain ⟨hec, -, -, -⟩ := hex
    simp only [Option.isSome_some]
    have hmem : ec ∈ numLit neg ip fp (some (ec, es, ep)) := by
      simp only [numLit, List.mem_append]
      refine Or.inr (Or.inr (Or.inr ?_))
      cases es <;> simp [exStr]
    have hlow : pyLower ec = 101 := by
      rcases hec with h | h <;> subst h <;> decide
    have hm : (101 : Nat) ∈ (numLit neg ip fp (some (ec, es, ep))).map pyLower :=
      List.mem_map.2 ⟨ec, hmem, hlow⟩
    simpa using hm
  | none =>
    simp only [Option.isSome_none]
    have hm : (101 : Nat) ∉ (numLit neg ip fp none).map pyLower := by
      intro hmem
      obtain ⟨x, hx, hlx⟩ := List.mem_map.1 hmem
      have hb : x ≤ 57 := by
        rcases numLit_mem_cases neg ip fp none x hx with h | h | h | h
        · omega
        · have := ip_bounds ip hip x h
          omega
        · cases fp with
          | none => simp [fpStr] at h
          | some f =>
            simp only [fpStr, List.mem_cons] at h
            rcases h with h | h
            · omega
            · have := hfp.2 x h
              omega
        · simp [exStr] at h
      rw [pyLower, if_neg (by omega)] at hlx
      omega
    simpa using hm

theorem advN_exhaust : ∀ (s : List Nat) (l c : Nat),
    (advN s.length ⟨s, l, c⟩).rest = [] := by
  intro s
  induction s with
  | nil => intro l c; rfl
  | cons a r ih =>
    intro l c
    rw [show (a :: r).length = r.length + 1 from rfl, advN]
    exact ih _ _

/-- `_parse_value` at a NUMBER token whose lookahead pull produced EOF:
the token's payload is returned as the value. -/
theorem parse_number_state (ps : PState) (hty : ps.tok.type = .number)
    (psE : PState) (hadv : advanceP ps = .ok psE)
    (fu : Nat) (h : muM .value ps < fu) :
    runMode .value fu ps h = .ok (.num (getNum ps.tok.value), psE) := by
  match fu, h with
  | fu + 1, h =>
    obtain ⟨hp1, hs1⟩ := advanceS_ok ps (by simp [hty]) _ hadv
    rw [runMode, parseGo]
    rw [dif_neg (by simp [hty]), dif_neg (by simp [hty]), dif_neg (by simp [hty]),
      dif_pos hty]
    unfold eatS
    rw [dif_pos hty, hs1]
    simp [Except.map]

/-- `parse` on an input that is one maximal, fully matching number run:
the NUMBER token is produced, the lookahead is EOF, and the token's
converted payload is the result. -/
theorem parsePy_number (c0 : Nat) (cs : List Nat)
    (hc0 : c0 = 45 ∨ (48 ≤ c0 ∧ c0 ≤ 57))
    (hscan : ∀ x ∈ c0 :: cs, numScanChar x = true)
    (hfm : numberFullmatch (c0 :: cs) = true) :
    parsePy (c0 :: cs) = .ok (.num (numValOfRun (c0 :: cs))) := by
  have hns : pyIsSpace c0 = false := by
    rcases hc0 with h | h
    · subst h
      decide
    · simp only [pyIsSpace, decide_eq_false_iff_not]
      intro hmem
      simp at hmem
      omega
  have hrun : (c0 :: cs).takeWhile numScanChar = c0 :: cs := takeWhile_all _ _ hscan
  have hread : readNumber ⟨c0 :: cs, 1, 1⟩ =
      .ok (⟨.number, .num (numValOfRun (c0 :: cs)), 1, 1⟩,
        advN (c0 :: cs).length ⟨c0 :: cs, 1, 1⟩) := by
    simp only [readNumber, hrun]
    rw [if_pos hfm]
  have hdig : c0 = 45 ∨ pyIsDigit c0 = true := by
    rcases hc0 with h | h
    · exact Or.inl h
    · refine Or.inr ?_
      simp only [pyIsDigit, decide_eq_true_eq]
      omega
  have htok : nextToken ⟨c0 :: cs, 1, 1⟩ =
      .ok (⟨.number, .num (numValOfRun (c0 :: cs)), 1, 1⟩,
        advN (c0 :: cs).length ⟨c0 :: cs, 1, 1⟩) := by
    unfold nextToken
    rw [show skipWs ⟨c0 :: cs, 1, 1⟩ = ⟨c0 :: cs, 1, 1⟩ from
      skipWsGo_not_space cs 1 1 c0 hns]
    rw [nextTokenCore]
    rw [if_neg (by rcases hc0 with h | h <;> omega),
      if_neg (by rcases hc0 with h | h <;> omega),
      if_neg (by rcases hc0 with h | h <;> omega),
      if_neg (by rcases hc0 with h | h <;> omega),
      if_neg (by rcases hc0 with h | h <;> omega),
      if_neg (by rcases hc0 with h | h <;> omega),
      if_neg (by rcases hc0 with h | h <;> omega),
      if_pos hdig]
    exact hread
  have hrest : (advN (c0 :: cs).length ⟨c0 :: cs, 1, 1⟩).rest = [] :=
    advN_exhaust (c0 :: cs) 1 1
  have hP : advanceP ⟨⟨.number, .num (numValOfRun (c0 :: cs)), 1, 1⟩,
      advN (c0 :: cs).length ⟨c0 :: cs, 1, 1⟩⟩ =
      .ok ⟨⟨.eof, .none, (advN (c0 :: cs).length ⟨c0 :: cs, 1, 1⟩).line,
          (advN (c0 :: cs).length ⟨c0 :: cs, 1, 1⟩).column⟩,
        ⟨[], (advN (c0 :: cs).length ⟨c0 :: cs, 1, 1⟩).line,
          (advN (c0 :: cs).length ⟨c0 :: cs, 1, 1⟩).column⟩⟩ := by
    have h2 : advN (c0 :: cs).length ⟨c0 :: cs, 1, 1⟩ =
        ⟨[], (advN (c0 :: cs).length ⟨c0 :: cs, 1, 1⟩).line,
          (advN (c0 :: cs).length ⟨c0 :: cs, 1, 1⟩).column⟩ := by
      rw [← hrest]
    unfold advanceP
    rw [h2]
    rfl
  have hinit : initState (c0 :: cs) =
      .ok ⟨⟨.number, .num (numValOfRun (c0 :: cs)), 1, 1⟩,
        advN (c0 :: cs).length ⟨c0 :: cs, 1, 1⟩⟩ := by
    unfold initState
    rw [htok]
  have hrm := parse_number_state
    ⟨⟨.number, .num (numValOfRun (c0 :: cs)), 1, 1⟩,
      advN (c0 :: cs).length ⟨c0 :: cs, 1, 1⟩⟩ rfl
    ⟨⟨.eof, .none, (advN (c0 :: cs).length ⟨c0 :: cs, 1, 1⟩).line,
        (advN (c0 :: cs).length ⟨c0 :: cs, 1, 1⟩).column⟩,
      ⟨[], (advN (c0 :: cs).length ⟨c0 :: cs, 1, 1⟩).line,
        (advN (c0 :: cs).length ⟨c0 :: cs, 1, 1⟩).column⟩⟩ hP
    (muM .value ⟨⟨.number, .num (numValOfRun (c0 :: cs)), 1, 1⟩,
      advN (c0 :: cs).length ⟨c0 :: cs, 1, 1⟩⟩ + 1) (Nat.lt_succ_self _)
  unfold parsePy parseTopValue
  rw [hinit]
  simp only [List.length_cons] at hrm
  simp [hrm, getNum]

/-- C8: every valid number literal — optional `-`, integer part `0` or
nonzero-leading digits, optional `.`+digits, optional `e`/`E`+sign+digits —
parses to the token's converted payload (first conjunct of the body), the
payload is float-typed exactly when a `.` or an exponent is present
(second), and its exact numeric value is
`sign * (int + frac/10^|frac|) * 10^(expsign*exp)` (third; `float`'s
IEEE-754 rounding of this exact decimal value is abstracted). The spec's
examples `0`, `-0`, `1.5`, `1e10`, `1.2e-10`, `-1.23e+5` parse to those
values concretely (remaining conjuncts). -/
theorem C8_number_values :
    (∀ (neg : Bool) (ip : List Nat) (fp : Option (List Nat))
      (ex : Option (Nat × Option Nat × List Nat)),
      validIp ip → validFp fp → validEx ex →
      parsePy (numLit neg ip fp ex) = .ok (.num (numValOfRun (numLit neg ip fp ex))) ∧
      pyNumIsFloat (numValOfRun (numLit neg ip fp ex)) = (fp.isSome || ex.isSome) ∧
      numToRat (numValOfRun (numLit neg ip fp ex)) =
        (if neg then -1 else 1) *
          ((digitsToNat ip : ℚ) +
            (digitsToNat (fpDigits fp) : ℚ) / 10 ^ (fpDigits fp).length) *
          (10 : ℚ) ^ (exSign ex * (digitsToNat (exDigits ex) : Int))) ∧
    parsePy (strCodes "0") = .ok (.num (.int 0)) ∧
    parsePy (strCodes "-0") = .ok (.num (.int 0)) ∧
    parsePy (strCodes "1.5") = .ok (.num (.float ⟨15, -1⟩)) ∧
    numToRat (.float ⟨15, -1⟩) = 3 / 2 ∧
    parsePy (strCodes "1e10") = .ok (.num (.float ⟨1, 10⟩)) ∧
    numToRat (.float ⟨1, 10⟩) = 10000000000 ∧
    parsePy (strCodes "1.2e-10") = .ok (.num (.float ⟨12, -11⟩)) ∧
    numToRat (.float ⟨12, -11⟩) = 12 / 100000000000 ∧
    parsePy (strCodes "-1.23e+5") = .ok (.num (.float ⟨-123, 3⟩)) ∧
    numToRat (.float ⟨-123, 3⟩) = -123000 := by
  refine ⟨?_, rfl, rfl, rfl, by norm_num [numToRat], rfl, by norm_num [numToRat],
    rfl, by norm_num [numToRat], rfl, by norm_num [numToRat]⟩
  intro neg ip fp ex hip hfp hex
  have hval : numValOfRun (numLit neg ip fp ex) =
      if fp.isSome || ex.isSome then .float (pyFloatOfString (numLit neg ip fp ex))
      else .int (pyIntOfString (numLit neg ip fp ex)) := by
    rw [numValOfRun, lit_contains_dot neg ip fp ex hip hex,
      lit_lower_e neg ip fp ex hip hfp hex]
  refine ⟨?_, ?_, ?_⟩
  · obtain ⟨c0, cs0, hlit, hc0⟩ : ∃ c0 cs0, numLit neg ip fp ex = c0 :: cs0 ∧
        (c0 = 45 ∨ (48 ≤ c0 ∧ c0 ≤ 57)) := by
      cases neg
      · obtain ⟨c, cs, hcs, hc⟩ := core_head ip (fpStr fp ++ exStr ex) hip
        exact ⟨c, cs, by simp [numLit, hcs], Or.inr hc⟩
      · exact ⟨45, ip ++ (fpStr fp ++ exStr ex), by simp [numLit], Or.inl rfl⟩
    rw [hlit]
    exact parsePy_number c0 cs0 hc0
      (hlit ▸ numLit_scan neg ip fp ex hip hfp hex)
      (hlit ▸ numberFullmatch_lit neg ip fp ex hip hfp hex)
  · rw [hval]
    cases hb : (fp.isSome || ex.isSome) <;> simp [hb, pyNumIsFloat]
  · rw [hval]
    cases hb : (fp.isSome || ex.isSome)
    · have hfp0 : fp = none := by
        cases fp
        · rfl
        · simp at hb
      have hex0 : ex = none := by
        cases ex
        · rfl
        · simp at hb
      subst hfp0
      subst hex0
      rw [if_neg (by simp)]
      obtain ⟨c, cs, hcs, hc⟩ := ip_head ip hip
      have hlit0 : numLit neg ip none none = (if neg then [45] else []) ++ ip := by
        simp [numLit, fpStr, exStr]
      have hint : pyIntOfString (numLit neg ip none none) =
          (if neg then (-1 : Int) else 1) * (digitsToNat ip : Int) := by
        rw [hlit0, pyIntOfString, stripMinus_lit neg ip c cs hcs hc]
      rw [hint]
      cases neg <;>
        simp [numToRat, fpDigits, exSign, exDigits, digitsToNat] <;>
        push_cast <;> ring
    · rw [if_pos rfl]
      have hdec := numDecomp_lit neg ip fp ex hip hfp hex
      have hfl : pyFloatOfString (numLit neg ip fp ex) =
          ⟨(if neg then (-1 : Int) else 1) * (digitsToNat (ip ++ fpDigits fp) : Int),
            exSign ex * (digitsToNat (exDigits ex) : Int) - ((fpDigits fp).length : Int)⟩ := by
        rw [pyFloatOfString, hdec]
      rw [hfl]
      simp only [numToRat]
      rw [digitsToNat_append ip (fpDigits fp),
        zpow_sub₀ (by norm_num : (10 : ℚ) ≠ 0), zpow_natCast]
      have h10 : (10 : ℚ) ^ (fpDigits fp).length ≠ 0 := by positivity
      cases neg <;> push_cast <;> field_simp <;> ring

/-- C8 witness: the literal `-12.5e-07`, parsed end to end; the payload is
a float of exact value `-(12 + 5/10) * 10^(-7)`. -/
theorem C8_number_values_witness :
    parsePy (numLit true [49, 50] (some [53]) (some (101, some 45, [48, 55]))) =
      .ok (.num (numValOfRun
        (numLit true [49, 50] (some [53]) (some (101, some 45, [48, 55]))))) ∧
    pyNumIsFloat (numValOfRun
      (numLit true [49, 50] (some [53]) (some (101, some 45, [48, 55])))) = true ∧
    numToRat (numValOfRun
        (numLit true [49, 50] (some [53]) (some (101, some 45, [48, 55])))) =
      -1 * ((digitsToNat [49, 50] : ℚ) +
          (digitsToNat [53] : ℚ) / 10 ^ ([53] : List Nat).length) *
        (10 : ℚ) ^ ((-1 : Int) * (digitsToNat [48, 55] : Int)) :=
  C8_number_values.1 true [49, 50] (some [53]) (some (101, some 45, [48, 55]))
    (Or.inr ⟨49, [50], rfl, by omega, by omega, by
      intro x hx
      simp at hx
      omega⟩)
    ⟨by simp, by
      intro x hx
      simp at hx
      omega⟩
    ⟨Or.inl rfl, Or.inr (Or.inr rfl), by simp, by
      intro x hx
      simp at hx
      omega⟩

/-! Structural equality (C3). `JsonValue.__eq__` compares the `to_native`
conversions with Python `==`. The characterization below describes the
result at every node shape: cross-variant comparisons are false except
between Bool and Number (Python `True == 1`), numbers and booleans compare
by exact numeric value, strings bytewise, arrays pointwise, and
unique-keyed objects by key set plus per-key equality. -/

/-- The variant of a value tree's root (`Null`, `Bool`, `Number`, `String`,
`Array`, `Object` as 0–5). -/
def jsonTag : JsonValue → Nat
  | .null => 0
  | .bool _ => 1
  | .num _ => 2
  | .str _ => 3
  | .arr _ => 4
  | .obj _ => 5

/-- The class of a native value, merging `int` and `float` (Python compares
them by numeric value). -/
def pyClass : PyVal → Nat
  | .none => 0
  | .bool _ => 1
  | .int _ => 2
  | .float _ => 2
  | .str _ => 3
  | .list _ => 4
  | .dict _ => 5

/-- The exact decimal view `(mantissa, exponent)` of a numeric-like tree
root: a Bool (0 or 1) or a Number; `none` otherwise. -/
def numView : JsonValue → Option (Int × Int)
  | .bool b => some (if b then 1 else 0, 0)
  | .num (.int i) => some (i, 0)
  | .num (.float f) => some (f.mant, f.exp10)
  | _ => none

/-- Modelled from the spec: pointwise equality of two element lists. -/
def jsonEqList : List JsonValue → List JsonValue → Bool
  | [], [] => true
  | x :: xs, y :: ys => jsonEq x y && jsonEqList xs ys
  | _, _ => false

theorem pyClass_toNative (a : JsonValue) : pyClass (toNative a) = jsonTag a := by
  cases a with
  | num n => cases n <;> rfl
  | str s => rfl
  | bool b => rfl
  | null => rfl
  | arr xs => rfl
  | obj kvs => rfl

theorem numRepPy_toNative (a : JsonValue) : numRepPy (toNative a) = numView a := by
  cases a with
  | num n => cases n <;> rfl
  | str s => rfl
  | bool b => rfl
  | null => rfl
  | arr xs => rfl
  | obj kvs => rfl

theorem pyEq_cross (u v : PyVal) (hne : pyClass u ≠ pyClass v)
    (hn : numRepPy u = Option.none ∨ numRepPy v = Option.none) :
    pyEq u v = false := by
  cases u <;> cases v <;> simp_all [pyEq, numRepPy, pyClass]

theorem pyEq_num (u v : PyVal) (x y : Int × Int)
    (hx : numRepPy u = some x) (hy : numRepPy v = some y) :
    pyEq u v = decEqB x y := by
  cases u <;> cases v <;> simp_all [pyEq, numRepPy]

theorem lookupProp_some_mem (k : PyStr) :
    ∀ (xs : List (PyStr × JsonValue)) (v : JsonValue),
      lookupProp k xs = some v → (k, v) ∈ xs := by
  intro xs
  induction xs with
  | nil =>
    intro v h
    rw [lookupProp] at h
    exact absurd h (by simp)
  | cons p rest ih =>
    intro v h
    obtain ⟨k2, w⟩ := p
    rw [lookupProp] at h
    by_cases hk : k2 = k
    · rw [if_pos hk] at h
      simp only [Option.some.injEq] at h
      subst hk
      subst h
      exact List.mem_cons_self _ _
    · rw [if_neg hk] at h
      exact List.mem_cons_of_mem _ (ih v h)

theorem lookupProp_isSome (k : PyStr) :
    ∀ (xs : List (PyStr × JsonValue)),
      (lookupProp k xs).isSome = true ↔ k ∈ xs.map Prod.fst := by
  intro xs
  induction xs with
  | nil => simp [lookupProp]
  | cons p rest ih =>
    obtain ⟨k2, w⟩ := p
    rw [lookupProp]
    by_cases hk : k2 = k
    · subst hk
      simp
    · rw [if_neg hk]
      simp [ih, Ne.symm hk]

theorem lookupProp_nodup_mem (k : PyStr) (v : JsonValue) :
    ∀ (xs : List (PyStr × JsonValue)), (xs.map Prod.fst).Nodup →
      (k, v) ∈ xs → lookupProp k xs = some v := by
  intro xs
  induction xs with
  | nil => intro _ h; simp at h
  | cons p rest ih =>
    intro hnd h
    obtain ⟨k2, w⟩ := p
    rw [List.map_cons, List.nodup_cons] at hnd
    rw [lookupProp]
    rcases List.mem_cons.1 h with h1 | h1
    · simp only [Prod.mk.injEq] at h1
      obtain ⟨h1a, h1b⟩ := h1
      subst h1a
      subst h1b
      rw [if_pos rfl]
    · have hkmem : k ∈ rest.map Prod.fst := List.mem_map.2 ⟨(k, v), h1, rfl⟩
      have hk2 : k2 ≠ k := fun he => hnd.1 (he ▸ hkmem)
      rw [if_neg hk2]
      exact ih hnd.2 h1

theorem pyDictSet_append (k : PyStr) (v : PyVal) :
    ∀ (acc : List (PyStr × PyVal)), (∀ p ∈ acc, p.1 ≠ k) →
      pyDictSet acc k v = acc ++ [(k, v)] := by
  intro acc
  induction acc with
  | nil => intro _; rfl
  | cons p rest ih =>
    intro h
    obtain ⟨k2, w⟩ := p
    rw [pyDictSet, if_neg (h (k2, w) (List.mem_cons_self _ _)),
      ih (fun q hq => h q (List.mem_cons_of_mem _ hq))]
    rfl

theorem toNativeDict_map :
    ∀ (kvs : List (PyStr × JsonValue)) (acc : List (PyStr × PyVal)),
      (kvs.map Prod.fst).Nodup →
      (∀ p ∈ acc, ∀ q ∈ kvs, p.1 ≠ q.1) →
      toNativeDict kvs acc = acc ++ kvs.map (fun p => (p.1, toNative p.2)) := by
  intro kvs
  induction kvs with
  | nil => intro acc _ _; simp [toNativeDict]
  | cons p rest ih =>
    intro acc hnd hdis
    obtain ⟨k, v⟩ := p
    rw [List.map_cons, List.nodup_cons] at hnd
    have hdis2 : ∀ q ∈ acc ++ [(k, toNative v)], ∀ r ∈ rest, q.1 ≠ r.1 := by
      intro q hq r hr
      rcases List.mem_append.1 hq with h1 | h1
      · exact hdis q h1 r (List.mem_cons_of_mem _ hr)
      · simp only [List.mem_singleton] at h1
        subst h1
        intro he
        exact hnd.1 (by rw [he]; exact List.mem_map.2 ⟨r, hr, rfl⟩)
    rw [toNativeDict, pyDictSet_append k (toNative v) acc
      (fun q hq => hdis q hq (k, v) (List.mem_cons_self _ _)), ih _ hnd.2 hdis2]
    simp

theorem lookupPV_map (k : PyStr) :
    ∀ (xs : List (PyStr × JsonValue)),
      lookupPV k (xs.map (fun p => (p.1, toNative p.2))) =
        (lookupProp k xs).map toNative := by
  intro xs
  induction xs with
  | nil => rfl
  | cons p rest ih =>
    obtain ⟨k2, v⟩ := p
    simp only [List.map_cons]
    rw [lookupPV, lookupProp]
    by_cases hk : k2 = k
    · rw [if_pos hk, if_pos hk]
      rfl
    · rw [if_neg hk, if_neg hk, ih]

theorem pyEqList_toNative :
    ∀ (xs ys : List JsonValue),
      pyEqList (toNativeList xs) (toNativeList ys) = jsonEqList xs ys := by
  intro xs
  induction xs with
  | nil => intro ys; cases ys <;> rfl
  | cons x rest ih =>
    intro ys
    cases ys with
    | nil => rfl
    | cons y rys =>
      rw [show toNativeList (x :: rest) = toNative x :: toNativeList rest from rfl,
        show toNativeList (y :: rys) = toNative y :: toNativeList rys from rfl,
        pyEqList, jsonEqList, ih]
      rfl

theorem pyEqDictSub_map (ys : List (PyStr × JsonValue)) :
    ∀ (xs : List (PyStr × JsonValue)),
      pyEqDictSub (xs.map (fun p => (p.1, toNative p.2)))
          (ys.map (fun p => (p.1, toNative p.2))) = true ↔
        ∀ p ∈ xs, ∃ w, lookupProp p.1 ys = some w ∧ jsonEq p.2 w = true := by
  intro xs
  induction xs with
  | nil => simp [pyEqDictSub]
  | cons p rest ih =>
    obtain ⟨k, v⟩ := p
    simp only [List.map_cons]
    rw [pyEqDictSub, lookupPV_map k ys]
    cases hw : lookupProp k ys with
    | none =>
      simp only [hw, Option.map_none', Bool.false_and]
      constructor
      · intro h
        simp at h
      · intro h
        exfalso
        obtain ⟨w, hw2, -⟩ := h (k, v) (List.mem_cons_self _ _)
        rw [hw] at hw2
        exact absurd hw2 (by simp)
    | some w =>
      simp only [hw, Option.map_some', Bool.and_eq_true, ih]
      constructor
      · rintro ⟨h1, h2⟩ q hq
        rcases List.mem_cons.1 hq with h3 | h3
        · subst h3
          exact ⟨w, hw, h1⟩
        · exact h2 q h3
      · intro h
        refine ⟨?_, fun q hq => h q (List.mem_cons_of_mem _ hq)⟩
        obtain ⟨w2, hw2, he⟩ := h (k, v) (List.mem_cons_self _ _)
        rw [hw] at hw2
        simp only [Option.some.injEq] at hw2
        subst hw2
        exact he

/-- C3 (amended): the equality of `models.py` compared node by node. A
cross-variant comparison is false — except between Bool and Number, which
Python compares numerically (first two conjuncts; the hypotheses say the
two roots are different variants and at least one is not numeric-like).
Numeric-like roots (Bool or Number) compare by exact numeric value, even
across Bool/Int/Float. Null equals Null, strings compare by content,
arrays pointwise in order, and objects with unique keys (what the parser
produces) by key set plus per-key equality regardless of binding order. -/
theorem C3_structural_equality_amended :
    (∀ a b : JsonValue, jsonTag a ≠ jsonTag b →
      numView a = Option.none ∨ numView b = Option.none → jsonEq a b = false) ∧
    (∀ a b : JsonValue, ∀ x y : Int × Int, numView a = some x → numView b = some y →
      jsonEq a b = decEqB x y) ∧
    jsonEq .null .null = true ∧
    (∀ s t : PyStr, jsonEq (.str s) (.str t) = decide (s = t)) ∧
    (∀ xs ys : List JsonValue, jsonEq (.arr xs) (.arr ys) = jsonEqList xs ys) ∧
    (∀ xs ys : List (PyStr × JsonValue),
      (xs.map Prod.fst).Nodup → (ys.map Prod.fst).Nodup →
      (jsonEq (.obj xs) (.obj ys) = true ↔
        (∀ k, (lookupProp k xs).isSome = true ↔ (lookupProp k ys).isSome = true) ∧
        (∀ k v w, lookupProp k xs = some v → lookupProp k ys = some w →
          jsonEq v w = true))) := by
  refine ⟨?_, ?_, rfl, fun s t => rfl, ?_, ?_⟩
  · intro a b hne hn
    refine pyEq_cross (toNative a) (toNative b) ?_ ?_
    · rw [pyClass_toNative, pyClass_toNative]
      exact hne
    · rw [numRepPy_toNative, numRepPy_toNative]
      exact hn
  · intro a b x y hx hy
    exact pyEq_num (toNative a) (toNative b) x y
      (by rw [numRepPy_toNative]; exact hx) (by rw [numRepPy_toNative]; exact hy)
  · intro xs ys
    exact pyEqList_toNative xs ys
  · intro xs ys hx hy
    have hxm := toNativeDict_map xs [] hx (by simp)
    have hym := toNativeDict_map ys [] hy (by simp)
    rw [show jsonEq (.obj xs) (.obj ys) =
      pyEq (.dict (toNativeDict xs [])) (.dict (toNativeDict ys [])) from rfl]
    rw [hxm, hym]
    simp only [List.nil_append]
    rw [pyEq, Bool.and_eq_true, decide_eq_true_eq, pyEqDictSub_map ys xs]
    simp only [List.length_map]
    constructor
    · rintro ⟨hlen, hsub⟩
      have hfwd : ∀ k v, lookupProp k xs = some v →
          ∃ w, lookupProp k ys = some w ∧ jsonEq v w = true := by
        intro k v hv
        exact hsub (k, v) (lookupProp_some_mem k xs v hv)
      have hKsub : (xs.map Prod.fst).toFinset ⊆ (ys.map Prod.fst).toFinset := by
        intro k hk
        rw [List.mem_toFinset, ← lookupProp_isSome] at hk
        obtain ⟨v, hv⟩ := Option.isSome_iff_exists.1 hk
        obtain ⟨w, hw, -⟩ := hfwd k v hv
        rw [List.mem_toFinset, ← lookupProp_isSome, hw]
        rfl
      have hKeq : (xs.map Prod.fst).toFinset = (ys.map Prod.fst).toFinset := by
        apply Finset.eq_of_subset_of_card_le hKsub
        rw [List.toFinset_card_of_nodup hx, List.toFinset_card_of_nodup hy,
          List.length_map, List.length_map]
        omega
      refine ⟨?_, ?_⟩
      · intro k
        rw [lookupProp_isSome, lookupProp_isSome, ← List.mem_toFinset,
          ← List.mem_toFinset, hKeq]
      · intro k v w hv hw
        obtain ⟨w2, hw2, he⟩ := hfwd k v hv
        rw [hw] at hw2
        simp only [Option.some.injEq] at hw2
        subst hw2
        exact he
    · rintro ⟨hiff, hval⟩
      have hKeq : (xs.map Prod.fst).toFinset = (ys.map Prod.fst).toFinset := by
        ext k
        rw [List.mem_toFinset, List.mem_toFinset, ← lookupProp_isSome,
          ← lookupProp_isSome]
        exact hiff k
      refine ⟨?_, ?_⟩
      · have hc := congrArg Finset.card hKeq
        rw [List.toFinset_card_of_nodup hx, List.toFinset_card_of_nodup hy,
          List.length_map, List.length_map] at hc
        exact hc
      · intro p hp
        obtain ⟨k, v⟩ := p
        have hv : lookupProp k xs = some v := lookupProp_nodup_mem k v xs hx hp
        have hsome : (lookupProp k ys).isSome = true := (hiff k).1 (by rw [hv]; rfl)
        obtain ⟨w, hw⟩ := Option.isSome_iff_exists.1 hsome
        exact ⟨w, hw, hval k v w hv hw⟩

/-- C3 witness: the cross-variant rule at a concrete pair — a String root
against a Null root is never equal. -/
theorem C3_structural_equality_amended_witness :
    jsonEq (.str [97]) .null = false :=
  C3_structural_equality_amended.1 (.str [97]) .null (by decide) (Or.inr rfl)

/-- C3 counterexample: two trees whose roots are different variants — the
Bool `true` and the Number `1` — compare equal, because `__eq__` compares
the `to_native` values with Python `==` and `True == 1` in Python. -/
theorem C3_counterexample :
    jsonEq (.bool true) (.num (.int 1)) = true := rfl

end JsonLLD
